import Mathlib

/-!
# Verification of the LeGen subtitle translation reconciliation engine

This file gives a shallow embedding, in Lean 4, of the core of the LeGen
subtitle pipeline: the cue chunk packer (`join_sentences`), the cue
reconstructor (`unjoin_sentences`), the bulk translation fallback chain
(`translate_chunk`, `translate_chunk_per_line`), the line wrapper
(`split_string_to_max_lines`) and the credential rotation of the
structured backend (`_switch_api`).

Modelling conventions:
* Python strings are `List Char` (`Str`); all Python string operations
  used by the source (`split`, `replace`, `strip`, `lstrip`, `count`,
  `rfind`, slicing with negative bounds, `str.split()` on whitespace)
  are re-implemented with Python's exact semantics.
* Python's float arithmetic on word-count ratios is modelled with exact
  rationals, and `round` with round-half-to-even on rationals.
* Character budgets (`max_chars`) are sizes, modelled as `Nat`.
* Provider calls (network translation) are oracles `Nat → Option Str`
  (`none` models a raised exception or timeout); exception propagation
  is made explicit with `Except`.
-/

namespace LeGen

/-- Python strings are modelled as lists of characters. -/
abbrev Str := List Char

/-- Lift a Lean string literal into the model. -/
def toL (s : String) : Str := s.data

/-- Python's notion of (ASCII) whitespace as used by `str.strip` /
`str.split()` on the texts this program handles. -/
def pyIsSpace (c : Char) : Bool :=
  c = ' ' || c = '\t' || c = '\n' || c = '\r' || c = '\x0b' || c = '\x0c'

/-- Python `s.strip()`: remove leading and trailing whitespace. -/
def pyStrip (s : Str) : Str :=
  ((s.dropWhile pyIsSpace).reverse.dropWhile pyIsSpace).reverse

/-- Python `s.lstrip(cs)`: remove leading characters drawn from `cs`. -/
def pyLstrip (cs : List Char) (s : Str) : Str :=
  s.dropWhile (fun c => cs.contains c)

/-- Python `s.split(pat)` for a non-empty pattern: greedy left-to-right
split on non-overlapping occurrences of `pat`. -/
def pySplit (pat : Str) : Str → List Str
  | [] => [[]]
  | c :: t =>
    if h : pat ≠ [] ∧ pat.isPrefixOf (c :: t) then
      [] :: pySplit pat ((c :: t).drop pat.length)
    else
      match pySplit pat t with
      | h :: r => (c :: h) :: r
      | [] => [[c]]
termination_by s => s.length
decreasing_by
  · simp only [List.length_drop, List.length_cons]
    have h1 : 1 ≤ pat.length := List.length_pos.mpr h.1
    omega
  · simp only [List.length_cons]; omega

/-- Python `s.replace(pat, rep)` for a non-empty pattern: greedy
left-to-right replacement of non-overlapping occurrences. -/
def pyReplace (pat rep : Str) : Str → Str
  | [] => []
  | c :: t =>
    if h : pat ≠ [] ∧ pat.isPrefixOf (c :: t) then
      rep ++ pyReplace pat rep ((c :: t).drop pat.length)
    else
      c :: pyReplace pat rep t
termination_by s => s.length
decreasing_by
  · simp only [List.length_drop, List.length_cons]
    have h1 : 1 ≤ pat.length := List.length_pos.mpr h.1
    omega
  · simp only [List.length_cons]; omega

/-- Python `s.count(pat)` for a non-empty pattern: number of greedy
non-overlapping occurrences. -/
def pyCount (pat : Str) : Str → ℕ
  | [] => 0
  | c :: t =>
    if h : pat ≠ [] ∧ pat.isPrefixOf (c :: t) then
      1 + pyCount pat ((c :: t).drop pat.length)
    else
      pyCount pat t
termination_by s => s.length
decreasing_by
  · simp only [List.length_drop, List.length_cons]
    have h1 : 1 ≤ pat.length := List.length_pos.mpr h.1
    omega
  · simp only [List.length_cons]; omega

/-- Python `s.split()` (no argument): split on whitespace runs, dropping
empty fragments. -/
def wordsOf (s : Str) : List Str :=
  (s.splitOnP pyIsSpace).filter (fun w => w ≠ [])

/-- Python `sep.join(xs)`. -/
def pyJoin (sep : Str) : List Str → Str
  | [] => []
  | [x] => x
  | x :: xs => x ++ sep ++ pyJoin sep xs

/-- Python `round` on an exact rational: round half to even. -/
def pyRound (q : ℚ) : ℤ :=
  let f := ⌊q⌋
  let r := q - (f : ℚ)
  if r < 1/2 then f
  else if 1/2 < r then f + 1
  else if f % 2 = 0 then f else f + 1

/-- Python `s[:e]` with a possibly negative end index. -/
def pySliceTo (s : Str) (e : ℤ) : Str :=
  if e < 0 then s.take ((s.length : ℤ) + e).toNat else s.take e.toNat

/-- Python `s.rfind(' ', 0, e)` with a possibly negative end bound:
index of the last space strictly before the (clamped) bound, `-1` when
there is none. -/
def pyRfindSpace (s : Str) (e : ℤ) : ℤ :=
  let effEnd : ℤ := if e < 0 then max ((s.length : ℤ) + e) 0 else min e (s.length : ℤ)
  let region := s.take effEnd.toNat
  match region.reverse.findIdx? (fun c => c = ' ') with
  | none => -1
  | some j => (region.length : ℤ) - 1 - j

/-! ## Constants of `translate_utils.py` -/

/-- `separator = " ◌ "`. -/
def sepL : Str := [' ', '◌', ' ']

/-- `separator_unjoin = separator.replace(' ', '')` = `"◌"`. -/
def sepUnjoin : Str := ['◌']

/-- `'ㅤ'`, the invisible placeholder substituted for empty cues. -/
def fillChar : Char := Char.ofNat 0x3164

/-- `sentence_endings` (all entries are single characters). -/
def sentenceEndings : List Char :=
  ['.', '!', '?', ')', 'よ', 'ね', 'の', 'さ', 'ぞ', 'な', 'か', '！', '。', '」', '…']

/-- `any(line.endswith(ending) for ending in sentence_endings)`. -/
def endsSentence (l : Str) : Bool :=
  match l.getLast? with
  | none => false
  | some c => sentenceEndings.contains c

/-- `if not line: line = 'ㅤ'` — the empty-cue placeholder step. -/
def fixLine (l : Str) : Str := if l = [] then [fillChar] else l

/-! ## `join_sentences` (the cue chunk packer) -/

/-- The truncation pathway of `join_sentences` for a single line whose
`line + separator` exceeds `max_chars` (lines 209–214 of
`translate_utils.py`), including the dead `end_index == -(1 +
len(separator))` comparison exactly as written in the source. -/
def truncEntry (line : Str) (mc : ℕ) : Str :=
  let e0 := pyRfindSpace line ((mc : ℤ) - (1 + (sepL.length : ℤ)))
  let e := if e0 = -(1 + (sepL.length : ℤ)) then (mc : ℤ) - (1 + (sepL.length : ℤ)) else e0
  ((pySliceTo line e) ++ ['…'] ++ sepL).take mc

/-- The loop of `join_sentences`, with the accumulating buffer
`current_chunk` made explicit.  `rest` being empty plays the role of
`is_last_line`; the head of `rest` is the look-ahead `next_line`. -/
def jsAux (mc : ℕ) : List Str → Str → List Str
  | [], cc => if cc = [] then [] else [cc]
  | l :: rest, cc =>
    let line := fixLine l
    let out1 : List Str :=
      if cc ≠ [] ∧ cc.length + line.length + sepL.length > mc then [cc] else []
    let cc1 : Str :=
      if cc ≠ [] ∧ cc.length + line.length + sepL.length > mc then [] else cc
    if line.length + sepL.length > mc then
      out1 ++ [truncEntry line mc] ++ jsAux mc rest cc1
    else
      let cc2 := cc1 ++ line ++ sepL
      match rest with
      | [] => out1 ++ [cc2]
      | next0 :: _ =>
        if endsSentence line = false then out1 ++ jsAux mc rest cc2
        else
          let next := fixLine next0
          if cc2.length + next.length + sepL.length > mc then
            out1 ++ [cc2] ++ jsAux mc rest []
          else
            out1 ++ jsAux mc rest cc2

/-- `join_sentences(lines, max_chars)` from `translate_utils.py`. -/
def join_sentences (lines : List Str) (mc : ℕ) : List Str :=
  jsAux mc lines []

/-! ## `unjoin_sentences` (the cue reconstructor) -/

/-- The character set of the `lstrip(" ,.:;)")` cleanup. -/
def junkChars : List Char := [' ', ',', '.', ':', ';', ')']

/-- The per-fragment cleanup
`s.strip().replace('  ', ' ').lstrip(" ,.:;)") if ... else s`. -/
def procFrag (s : Str) : Str :=
  let t := pyLstrip junkChars (pyReplace (toL "  ") (toL " ") (pyStrip s))
  if t ≠ [] then t else s

/-- The full fragment pipeline applied to both the original and the
modified side: keep fragments with non-blank strip, clean each, then
drop empty and blank results. -/
def procLines (frags : List Str) : List Str :=
  ((((frags.filter (fun s => pyStrip s ≠ [])).map procFrag).filter
      (fun s => s ≠ [])).filter (fun s => pyStrip s ≠ []))

/-- `unjoin_sentences` returns a list of lines on its main paths but a
plain string on its degenerate paths (Python is dynamically typed). -/
inductive UnjoinResult where
  | str (s : Str)
  | lines (ls : List Str)
deriving DecidableEq, Repr

/-- Python list slice `xs[a:b]` (used only with non-negative bounds). -/
def pySliceNat (xs : List Str) (a b : ℤ) : List Str :=
  (xs.take (max b 0).toNat).drop (max a 0).toNat

/-- The proportional word-redistribution loop of `unjoin_sentences`
(lines 299–319): walk the original lines, assigning
`int(round(count * ratio))` consecutive pool words to each, the last
line also absorbing the tail of the pool. -/
def redistAux (pool : List Str) (ratio : ℚ) : List Str → ℤ → List Str
  | [], _ => []
  | ol :: rest, cur =>
    let num : ℤ := pyRound (((wordsOf (pyStrip ol)).length : ℚ) * ratio)
    let gen := pyJoin [' '] (pySliceNat pool cur (cur + num))
    if rest = [] then
      let tail := pyJoin [' '] (pool.drop (cur + num).toNat)
      let gen2 := if tail ≠ [] then pyStrip (pyJoin [' '] [gen, tail]) else gen
      [pyStrip (pyReplace (toL "  ") (toL " ") gen2)]
    else
      pyStrip (pyReplace (toL "  ") (toL " ") gen) ::
        redistAux pool ratio rest (cur + num)

/-- The `while len(new_modified_lines) < len(original_lines)` padding
loop: repeat the last entry until the target length is reached (on an
empty list Python would fail on `[-1]`; that path is unreachable). -/
def padTo (target : ℕ) (ls : List Str) : List Str :=
  if ls = [] then ls
  else ls ++ List.replicate (target - ls.length) (ls.getLastD [])

/-- The original-side fragment list of `unjoin_sentences`: split on the
separator parameter and clean. -/
def originalLinesOf (sep : Str) (orig : Str) : List Str :=
  procLines (pySplit sep orig)

/-- The "fix strange formatation" replacement chain applied to the
provider response (moving spaces and punctuation across the marker). -/
def fixupModified (m : Str) : Str :=
  pyReplace (sepUnjoin ++ [',']) ([','] ++ sepUnjoin)
    (pyReplace (sepUnjoin ++ ['.']) (['.'] ++ sepUnjoin)
      (pyReplace ([' '] ++ sepUnjoin) sepUnjoin
        (pyReplace (sepUnjoin ++ [' ']) sepUnjoin m)))

/-- The modified-side fragment list of `unjoin_sentences`: fix up, split
on the module-level `separator_unjoin`, and clean. -/
def modifiedLinesOf (m : Str) : List Str :=
  procLines (pySplit sepUnjoin (fixupModified m))

/-- `original_word_count`: total word count over the original lines. -/
def owcOf (ls : List Str) : ℕ :=
  (ls.map (fun l => (wordsOf (pyStrip l)).length)).sum

/-- `modified_word_count`: word count of the joined modified lines. -/
def mwcOf (ls : List Str) : ℕ :=
  (wordsOf (pyStrip (pyJoin [' '] ls))).length

/-- `modified_words`: the translated word pool used for proportional
redistribution (note the final `.split(' ')` on a single space, not
`.split()`). -/
def poolOf (sep : Str) (ls : List Str) : List Str :=
  pySplit [' ']
    (pyStrip (pyReplace (toL "  ") (toL " ")
      (pyReplace sepUnjoin []
        (pyReplace sep [] (pyJoin [' '] ls)))))

/-- `unjoin_sentences(original_sentence, modified_sentence, separator)`
from `translate_utils.py`.  The parameter `sep` shadows the module-level
`separator` inside the function body, exactly as in the source; the
module-level `separator_unjoin` (`"◌"`) is used where the source names
it.  The comparisons `original_lines == "..."`/`== "…"` compare a list
with a string and are always false in Python, so they are omitted. -/
def unjoin_sentences (orig? : Option Str) (modif? : Option Str) (sep : Str) :
    UnjoinResult :=
  match orig? with
  | none => .str [' ']
  | some orig =>
    let originalLines := originalLinesOf sep orig
    match modif? with
    | none => if originalLines = [] then .str [' '] else .lines originalLines
    | some modif0 =>
      let modifiedLines := modifiedLinesOf modif0
      if originalLines.length = modifiedLines.length then .lines modifiedLines
      else
        let owc := owcOf originalLines
        let mwc := mwcOf modifiedLines
        if owc = 0 ∨ mwc = 0 then
          .str (pyReplace (toL "  ") (toL " ") (pyReplace sep [' '] orig))
        else
          let ratio : ℚ := (mwc : ℚ) / (owc : ℚ)
          let pool := poolOf sep modifiedLines
          let newLines := padTo originalLines.length (redistAux pool ratio originalLines 0)
          if newLines ≠ [] then .lines newLines
          else if originalLines ≠ [] then .lines originalLines
          else .str [' ']

/-! ## Validation helpers of the bulk backend -/

/-- `count_separators(text)`. -/
def count_separators (t : Str) : ℕ := pyCount sepL t

/-- `has_exact_separators(text, expected)` (`expected` is a count, hence
a `Nat`; the `expected <= 0` early acceptance is the `= 0` case). -/
def has_exact_separators (t : Str) (expected : ℕ) : Bool :=
  if expected = 0 then true else pyCount sepL t = expected

/-- `strip_separators(text)`. -/
def strip_separators (t : Str) : Str :=
  if t = [] then []
  else pyStrip (pyReplace ['◌'] [' ']
    (pyReplace sepUnjoin [' '] (pyReplace sepL [' '] t)))

/-- Length of the common prefix of two strings (the index loop of
`common_prefix_ratio`). -/
def commonPrefixLen : Str → Str → ℕ
  | a :: as', b :: bs => if a = b then commonPrefixLen as' bs + 1 else 0
  | _, _ => 0

/-- `common_prefix_ratio(a, b)` as an exact rational. -/
def commonPrefixRatioQ (a b : Str) : ℚ :=
  let n := min a.length b.length
  if n = 0 then 0 else (commonPrefixLen a b : ℚ) / (n : ℚ)

/-- Python `s.lower()` (ASCII case folding suffices for this model). -/
def pyLower (s : Str) : Str := s.map Char.toLower

/-- `is_likely_unchanged(translated, original)`. -/
def is_likely_unchanged (translated original : Str) : Bool :=
  let ct := pyLower (strip_separators translated)
  let co := pyLower (strip_separators original)
  if ct = [] ∨ co = [] then false
  else if ct = co then true
  else decide (commonPrefixRatioQ ct co > 9/10)

/-- `hard_separators`. -/
def hardSeparators : List Str := [toL "⟧⟦", toL "⟬⟭", toL "⟪⟫"]

/-! ## `translate_chunk` and `translate_chunk_per_line`

The external translation provider is modelled as an oracle
`Nat → Str → Option Str`: call number and request text in, either a
response text or `none` (a raised exception / timeout) out.  A call
counter is threaded so that successive calls consult successive oracle
entries. -/

/-- The per-line loop of `translate_chunk_per_line`: every provider
call is inside `try/except`, a failing or empty translation keeps the
original line, an empty line is passed through without a call. -/
def tcplAux (oracle : ℕ → Str → Option Str) : List Str → ℕ → List Str × ℕ
  | [], k => ([], k)
  | line :: rest, k =>
    if line = [] then
      let p := tcplAux oracle rest k
      ([] :: p.1, p.2)
    else
      match oracle k line with
      | none =>
        let p := tcplAux oracle rest (k + 1)
        (line :: p.1, p.2)
      | some t =>
        let r := if t = [] then line else t
        let p := tcplAux oracle rest (k + 1)
        (r :: p.1, p.2)

/-- `translate_chunk_per_line(chunk, target_lang, translator)`: split on
the soft marker, strip each field, translate each non-empty field
independently (keeping the original on failure), and rejoin with the
soft marker. -/
def translate_chunk_per_line (chunk : Str) (oracle : ℕ → Str → Option Str)
    (k : ℕ) : Str × ℕ :=
  let lines := (pySplit sepL chunk).map pyStrip
  let p := tcplAux oracle lines k
  (pyJoin sepL p.1, p.2)

/-- The `for attempt in range(max_attempts)` loop of `translate_chunk`:
each attempt's provider call is inside `try/except`; a response is
returned only if non-empty, with at least one word outside the markers,
with the expected marker count, and not likely unchanged. -/
def normalAttempts (oracle : ℕ → Str → Option Str) (chunk : Str)
    (expected : ℕ) : ℕ → ℕ → Option Str × ℕ
  | 0, k => (none, k)
  | n + 1, k =>
    match oracle k chunk with
    | none => normalAttempts oracle chunk expected n (k + 1)
    | some t =>
      if t = [] ∨ (wordsOf (strip_separators t)).length = 0 then
        normalAttempts oracle chunk expected n (k + 1)
      else if has_exact_separators t expected ∧ ¬ is_likely_unchanged t chunk then
        (some t, k + 1)
      else
        normalAttempts oracle chunk expected n (k + 1)

/-- The hard-separator retry loop of `translate_chunk` (3 tries with
rotating tokens): substitute a hard token for the soft marker, call,
restore, and validate with the same rules. -/
def hardAttempts (oracle : ℕ → Str → Option Str) (chunk : Str)
    (expected : ℕ) : ℕ → ℕ → ℕ → Option Str × ℕ
  | 0, _, k => (none, k)
  | n + 1, i, k =>
    let token := hardSeparators.getD (i % hardSeparators.length) []
    let tokenChunk := pyReplace sepL (token ++ [' ']) chunk
    match oracle k tokenChunk with
    | none => hardAttempts oracle chunk expected n (i + 1) (k + 1)
    | some t =>
      if t = [] then hardAttempts oracle chunk expected n (i + 1) (k + 1)
      else
        let restored := pyReplace token sepL t
        if has_exact_separators restored expected ∧
            ¬ is_likely_unchanged restored chunk then
          (some restored, k + 1)
        else
          hardAttempts oracle chunk expected n (i + 1) (k + 1)

/-- `translate_chunk(index, chunk, target_lang, expected_separators)`:
the three-tier fallback chain.  The result type `Except Unit Str` makes
exception propagation explicit: every provider call in the source sits
inside a `try/except` (or has its result checked), so the function can
be shown never to produce `.error`.  `startIdx` is the value handed out
by `reserve_hard_separators`. -/
def translate_chunk (chunk : Str) (expected : ℕ)
    (oracle : ℕ → Str → Option Str) (startIdx : ℕ) : Except Unit Str :=
  let maxAttempts := if (strip_separators chunk).length > 20 then 3 else 1
  let n := normalAttempts oracle chunk expected maxAttempts 0
  match n.1 with
  | some t => .ok t
  | none =>
    let h := hardAttempts oracle chunk expected 3 startIdx n.2
    match h.1 with
    | some t => .ok t
    | none => .ok (translate_chunk_per_line chunk oracle h.2).1

/-! ## `split_string_to_max_lines` (the line wrapper)

The pixel-width measurement (`string_width`) is taken as a parameter
`widthFn`, as the claim directs; the source's tkinter measurement is
environment I/O. -/

/-- `is_punctuation_end(word)`. -/
def is_punctuation_end (w : Str) : Bool :=
  ['.', ',', '!', '?', ':', ';'].any (fun p => w.getLast? = some p)

/-- The word loop of `split_string_to_max_lines`: `lines` are the
completed lines, `cur`/`curw` the accumulating line and its width; the
`len(lines) == max_lines - 1` check dumps all remaining words
(including the current one) into a final line and stops. -/
def sslAux (widthFn : Str → ℚ) (maxLines : ℤ) (tgt : ℚ) :
    List Str → List Str → List Str → ℚ → List Str
  | [], lines, cur, _ =>
    if cur ≠ [] ∧ (lines.length : ℤ) < maxLines then lines ++ [pyJoin [' '] cur]
    else lines
  | w :: rest, lines, cur, curw =>
    let ww := widthFn (w ++ [' '])
    let isolated := is_punctuation_end w ∧
      ¬ (cur ≠ [] ∧ is_punctuation_end (cur.getLastD []))
    let logical := cur.length ≥ 2 ∧ (cur.getLastD []).length ≤ 3 ∧
      ¬ ((cur.getD (cur.length - 2) []).length ≤ 3)
    let step :=
      if curw + ww < tgt ∨ cur = [] ∨ isolated ∨ logical then
        (lines, cur ++ [w], curw + ww)
      else
        (lines ++ [pyJoin [' '] cur], [w], ww)
    if (step.1.length : ℤ) = maxLines - 1 then
      step.1 ++ [pyJoin [' '] (w :: rest)]
    else
      sslAux widthFn maxLines tgt rest step.1 step.2.1 step.2.2

/-- `split_string_to_max_lines(text, max_width, max_lines, ...)` from
`subtitle_utils.py` with the width measurement as a parameter. -/
def split_string_to_max_lines (widthFn : Str → ℚ) (text : Str)
    (maxWidth : ℚ) (maxLines : ℤ) : List Str :=
  let threshold := maxWidth * (8 / 10)
  let total := widthFn text
  if total ≤ threshold ∨ maxLines < 2 then [text]
  else sslAux widthFn maxLines (total / (maxLines : ℚ)) (wordsOf text) [] [] 0

/-! ## `MultiKeyGeminiTranslator._switch_api` (credential rotation) -/

/-- The credential-rotation state of `MultiKeyGeminiTranslator`. -/
structure GeminiState where
  apiKeys : List Str
  apiIndex : ℕ
  currentKey : Str
  currentNumber : ℕ
  backupNumber : ℕ
deriving DecidableEq, Repr

/-- `MultiKeyGeminiTranslator.__init__`: clean the key list
(`[key.strip() for key in api_keys if key and key.strip()]`); an empty
cleaned list raises `ValueError`, modelled as `none`. -/
def geminiInit (raw : List Str) : Option GeminiState :=
  let cleaned := (raw.filter (fun k => k ≠ [] ∧ pyStrip k ≠ [])).map pyStrip
  match h : cleaned with
  | [] => none
  | primary :: _ =>
    some { apiKeys := cleaned, apiIndex := 0, currentKey := primary,
           currentNumber := 1,
           backupNumber := if cleaned.length > 1 then 2 else 1 }

/-- The `for step in range(1, total_keys + 1)` search of `_switch_api`:
the first index distinct from the current one holding a non-empty key. -/
def switchSearch (keys : List Str) (idx : ℕ) : ℕ → ℕ → Option ℕ
  | 0, _ => none
  | fuel + 1, step =>
    let nextIndex := (idx + step) % keys.length
    if nextIndex = idx then switchSearch keys idx fuel (step + 1)
    else if keys.getD nextIndex [] = [] then switchSearch keys idx fuel (step + 1)
    else some nextIndex

/-- `MultiKeyGeminiTranslator._switch_api`: no rotation with at most one
key; otherwise advance to the first distinct non-empty key (wrapping),
remembering the previously active key's number as the backup. -/
def switch_api (st : GeminiState) : Bool × GeminiState :=
  if st.apiKeys.length ≤ 1 then (false, st)
  else
    match switchSearch st.apiKeys st.apiIndex st.apiKeys.length 1 with
    | none => (false, st)
    | some nextIndex =>
      (true,
        { st with
          apiIndex := nextIndex,
          currentKey := st.apiKeys.getD nextIndex [],
          currentNumber := nextIndex + 1,
          backupNumber := st.currentNumber })

/-! ## Theorems -/

/-- A truncated standalone entry is explicitly cut to the budget. -/
theorem truncEntry_length_le (line : Str) (mc : ℕ) :
    (truncEntry line mc).length ≤ mc := by
  simp [truncEntry, List.length_take]

/-- Invariant of the packing loop: if the incoming buffer is within the
budget, every emitted batch is within the budget. -/
theorem jsAux_length_le (mc : ℕ) (lines : List Str) :
    ∀ (cc : Str), cc.length ≤ mc → ∀ c ∈ jsAux mc lines cc, c.length ≤ mc := by
  induction lines with
  | nil =>
    intro cc hcc c hc
    simp only [jsAux] at hc
    split at hc
    · simp at hc
    · rw [List.mem_singleton] at hc
      exact hc ▸ hcc
  | cons l rest ih =>
    intro cc hcc c hc
    have hsep : sepL.length = 3 := rfl
    by_cases hF : cc ≠ [] ∧ cc.length + (fixLine l).length + sepL.length > mc
    · -- flush first: out1 = [cc], cc1 = []
      by_cases hT : (fixLine l).length + sepL.length > mc
      · simp only [jsAux, if_pos hF, if_pos hT, List.mem_append, List.mem_singleton, List.mem_cons, List.not_mem_nil, or_false, false_or] at hc
        rcases hc with (hc | hc) | hc
        · exact hc ▸ hcc
        · exact hc ▸ truncEntry_length_le _ _
        · exact ih [] (by simp) c hc
      · -- cc2 = fixLine l ++ sepL, length ≤ mc by ¬hT
        have hcc2 : (([] : Str) ++ fixLine l ++ sepL).length ≤ mc := by
          simp only [List.nil_append, List.length_append, hsep]
          omega
        rcases rest with _ | ⟨n0, rest'⟩
        · simp only [jsAux, if_pos hF, if_neg hT, List.mem_append, List.mem_singleton, List.mem_cons, List.not_mem_nil, or_false, false_or] at hc
          rcases hc with hc | hc
          · exact hc ▸ hcc
          · exact hc ▸ hcc2
        · by_cases hE : endsSentence (fixLine l) = false
          · simp only [jsAux, if_pos hF, if_neg hT, if_pos hE, List.mem_append,
              List.mem_singleton, List.mem_cons, List.not_mem_nil, or_false,
              false_or] at hc
            rcases hc with hc | hc
            · exact hc ▸ hcc
            · exact ih _ hcc2 c hc
          · by_cases hL : (([] : Str) ++ fixLine l ++ sepL).length +
                (fixLine n0).length + sepL.length > mc
            · simp only [jsAux, if_pos hF, if_neg hT, if_neg hE, if_pos hL,
                List.mem_append, List.mem_singleton, List.mem_cons, List.not_mem_nil, or_false, false_or] at hc
              rcases hc with (hc | hc) | hc
              · exact hc ▸ hcc
              · exact hc ▸ hcc2
              · exact ih [] (by simp) c hc
            · simp only [jsAux, if_pos hF, if_neg hT, if_neg hE, if_neg hL,
                List.mem_append, List.mem_singleton, List.mem_cons, List.not_mem_nil, or_false, false_or] at hc
              rcases hc with hc | hc
              · exact hc ▸ hcc
              · exact ih _ hcc2 c hc
    · -- no flush: out1 = [], cc1 = cc
      have hcc2 : (cc ++ fixLine l ++ sepL).length ≤ mc ∨
          (fixLine l).length + sepL.length > mc := by
        by_cases hT : (fixLine l).length + sepL.length > mc
        · exact Or.inr hT
        · left
          simp only [List.length_append, hsep]
          rcases Classical.em (cc = []) with h | h
          · subst h; simp only [List.length_nil]; omega
          · have := not_and.mp hF h
            omega
      by_cases hT : (fixLine l).length + sepL.length > mc
      · simp only [jsAux, if_neg hF, if_pos hT, List.nil_append, List.mem_append,
          List.mem_singleton, List.mem_cons, List.not_mem_nil, or_false,
          false_or] at hc
        rcases hc with hc | hc
        · exact hc ▸ truncEntry_length_le _ _
        · exact ih cc hcc c hc
      · have hcc2' : (cc ++ fixLine l ++ sepL).length ≤ mc := by
          rcases hcc2 with h | h
          · exact h
          · omega
        rcases rest with _ | ⟨n0, rest'⟩
        · simp only [jsAux, if_neg hF, if_neg hT, List.nil_append,
            List.mem_singleton] at hc
          exact hc ▸ hcc2'
        · by_cases hE : endsSentence (fixLine l) = false
          · simp only [jsAux, if_neg hF, if_neg hT, if_pos hE, List.nil_append] at hc
            exact ih _ hcc2' c hc
          · by_cases hL : (cc ++ fixLine l ++ sepL).length +
                (fixLine n0).length + sepL.length > mc
            · simp only [jsAux, if_neg hF, if_neg hT, if_neg hE, if_pos hL,
                List.nil_append, List.mem_append, List.mem_singleton,
                List.mem_cons, List.not_mem_nil, or_false, false_or] at hc
              rcases hc with hc | hc
              · exact hc ▸ hcc2'
              · exact ih [] (by simp) c hc
            · simp only [jsAux, if_neg hF, if_neg hT, if_neg hE, if_neg hL,
                List.nil_append] at hc
              exact ih _ hcc2' c hc

/-- C8.  Character-budget bound: every batch string returned by
`join_sentences` has length at most `max_chars`. -/
theorem C8_batch_length_le_max_chars (lines : List Str) (mc : ℕ) (c : Str)
    (hc : c ∈ join_sentences lines mc) : c.length ≤ mc :=
  jsAux_length_le mc lines [] (by simp) c hc

/-- Witness for C8 at a concrete input. -/
theorem C8_batch_length_le_max_chars_witness :
    (toL "a ◌ ").length ≤ 10 :=
  C8_batch_length_le_max_chars [toL "a"] 10 (toL "a ◌ ") (by decide)

/-- With at least two keys, the rotation search succeeds at its first
step, landing on the next index (wrapping). -/
theorem switchSearch_first_step (keys : List Str) (idx f : ℕ)
    (h2 : 2 ≤ keys.length) (hidx : idx < keys.length)
    (hne : ∀ k ∈ keys, k ≠ []) :
    switchSearch keys idx (f + 1) 1 = some ((idx + 1) % keys.length) := by
  have hmod : (idx + 1) % keys.length ≠ idx := by
    rcases Nat.lt_or_ge (idx + 1) keys.length with h | h
    · rw [Nat.mod_eq_of_lt h]; omega
    · have he : idx + 1 = keys.length := by omega
      rw [he, Nat.mod_self]
      omega
  have hlt : (idx + 1) % keys.length < keys.length := Nat.mod_lt _ (by omega)
  have hkey : keys.getD ((idx + 1) % keys.length) [] ≠ [] := by
    rw [List.getD_eq_getElem keys [] hlt]
    exact hne _ (List.getElem_mem hlt)
  simp only [switchSearch, if_neg hmod, if_neg hkey]

/-- C9.  Credential rotation: `_switch_api` returns `False` (no state
change) with fewer than two credentials; with at least two, all
non-empty, it advances the active credential to the next index in list
order (wrapping around) and records the previously active credential's
number as the backup designation. -/
theorem C9_switch_api_rotation (st : GeminiState)
    (hidx : st.apiIndex < st.apiKeys.length)
    (hne : ∀ k ∈ st.apiKeys, k ≠ []) :
    (st.apiKeys.length ≤ 1 → switch_api st = (false, st)) ∧
    (2 ≤ st.apiKeys.length →
      switch_api st =
        (true,
          { st with
            apiIndex := (st.apiIndex + 1) % st.apiKeys.length,
            currentKey := st.apiKeys.getD ((st.apiIndex + 1) % st.apiKeys.length) [],
            currentNumber := (st.apiIndex + 1) % st.apiKeys.length + 1,
            backupNumber := st.currentNumber })) := by
  constructor
  · intro h1
    simp only [switch_api, if_pos h1]
  · intro h2
    obtain ⟨f, hf⟩ : ∃ f, st.apiKeys.length = f + 1 := ⟨st.apiKeys.length - 1, by omega⟩
    simp only [switch_api, if_neg (by omega : ¬ st.apiKeys.length ≤ 1), hf,
      switchSearch_first_step st.apiKeys st.apiIndex f (hf ▸ h2) (hf ▸ hidx) hne]
    rw [if_neg (by omega : ¬ f + 1 ≤ 1)]

/-- Witness for C9: with credentials `["bad", "good"]` and the state
produced by `__init__`, one rotation makes `"good"` the active
credential (number 2) and records 1 as the backup. -/
theorem C9_switch_api_rotation_witness :
    switch_api ⟨[toL "bad", toL "good"], 0, toL "bad", 1, 2⟩ =
      (true, ⟨[toL "bad", toL "good"], 1, toL "good", 2, 1⟩) := by
  have h := (C9_switch_api_rotation ⟨[toL "bad", toL "good"], 0, toL "bad", 1, 2⟩
    (by decide) (by decide)).2 (by decide)
  exact h.trans (by decide)

/-- C7 (the code at the failing input): for the space-less cue
`"aaaaaaaaaab"` with `max_chars = 8`, the emitted standalone entry is
`"aaaaaaaa"` — no ellipsis and no marker, because the `rfind` failure
value `-1` is compared against `-(1 + len(separator)) = -4` (a dead
branch) and the final `[:max_chars]` cut removes the appended marker. -/
theorem C7_truncation_cuts_marker :
    join_sentences [toL "aaaaaaaaaab"] 8 = [toL "aaaaaaaa"] ∧
    ¬ '◌' ∈ toL "aaaaaaaa" ∧ ¬ '…' ∈ toL "aaaaaaaa" := by
  decide

/-- The redistribution loop emits exactly one reconstructed line per
original line. -/
theorem redistAux_length (pool : List Str) (ratio : ℚ) :
    ∀ (ols : List Str) (cur : ℤ), (redistAux pool ratio ols cur).length = ols.length := by
  intro ols
  induction ols with
  | nil => intro cur; rfl
  | cons ol rest ih =>
    intro cur
    by_cases h : rest = []
    · subst h
      simp [redistAux]
    · simp only [redistAux, if_neg h, List.length_cons, ih]

/-- C1 (amended).  For every batch whose original side carries at least
one word and every translated response carrying at least one word after
marker cleanup, reconstruction yields a list with exactly as many
entries as the batch's original cue lines.  (For whitespace-only or
empty responses the function instead returns a single unsegmented
string — see the counterexample.) -/
theorem C1_reconstruction_count (orig modif : Str)
    (howc : owcOf (originalLinesOf sepUnjoin orig) ≠ 0)
    (hmwc : mwcOf (modifiedLinesOf modif) ≠ 0) :
    ∃ ls, unjoin_sentences (some orig) (some modif) sepUnjoin = .lines ls ∧
      ls.length = (originalLinesOf sepUnjoin orig).length := by
  have hol : originalLinesOf sepUnjoin orig ≠ [] := by
    intro h
    rw [h] at howc
    simp [owcOf] at howc
  by_cases hlen : (originalLinesOf sepUnjoin orig).length =
      (modifiedLinesOf modif).length
  · exact ⟨_, by simp only [unjoin_sentences, if_pos hlen], hlen.symm⟩
  · have hrl : (redistAux (poolOf sepUnjoin (modifiedLinesOf modif))
        ((mwcOf (modifiedLinesOf modif) : ℚ) / (owcOf (originalLinesOf sepUnjoin orig) : ℚ))
        (originalLinesOf sepUnjoin orig) 0).length =
        (originalLinesOf sepUnjoin orig).length :=
      redistAux_length _ _ _ _
    have hrne : redistAux (poolOf sepUnjoin (modifiedLinesOf modif))
        ((mwcOf (modifiedLinesOf modif) : ℚ) / (owcOf (originalLinesOf sepUnjoin orig) : ℚ))
        (originalLinesOf sepUnjoin orig) 0 ≠ [] := by
      intro h
      rw [h] at hrl
      exact hol (List.length_eq_zero.mp hrl.symm)
    have hpad : padTo (originalLinesOf sepUnjoin orig).length
        (redistAux (poolOf sepUnjoin (modifiedLinesOf modif))
          ((mwcOf (modifiedLinesOf modif) : ℚ) / (owcOf (originalLinesOf sepUnjoin orig) : ℚ))
          (originalLinesOf sepUnjoin orig) 0) =
        redistAux (poolOf sepUnjoin (modifiedLinesOf modif))
          ((mwcOf (modifiedLinesOf modif) : ℚ) / (owcOf (originalLinesOf sepUnjoin orig) : ℚ))
          (originalLinesOf sepUnjoin orig) 0 := by
      rw [padTo, if_neg hrne, hrl, Nat.sub_self]
      simp
    refine ⟨redistAux (poolOf sepUnjoin (modifiedLinesOf modif))
        ((mwcOf (modifiedLinesOf modif) : ℚ) / (owcOf (originalLinesOf sepUnjoin orig) : ℚ))
        (originalLinesOf sepUnjoin orig) 0, ?_, hrl⟩
    simp only [unjoin_sentences, if_neg hlen]
    rw [if_neg (show ¬ (owcOf (originalLinesOf sepUnjoin orig) = 0 ∨
      mwcOf (modifiedLinesOf modif) = 0) by tauto)]
    rw [hpad, if_pos hrne]

/-- Counterexample to C1 as stated: for the batch `"a ◌ b ◌ "` (two
original cue lines) and the empty translated response, reconstruction
returns a plain unsegmented string, not a two-entry list. -/
theorem C1_counterexample :
    unjoin_sentences (some (toL "a ◌ b ◌ ")) (some (toL "")) sepUnjoin =
      .str (toL "a  b  ") ∧
    (originalLinesOf sepUnjoin (toL "a ◌ b ◌ ")).length = 2 := by
  constructor
  · simp +decide [unjoin_sentences, originalLinesOf, modifiedLinesOf, fixupModified,
      procLines, procFrag, owcOf, mwcOf, pySplit, pyReplace, pyStrip, pyLstrip,
      pyIsSpace, wordsOf, pyJoin, sepUnjoin, junkChars, toL]
  · simp +decide [originalLinesOf, procLines, procFrag, pySplit, pyReplace,
      pyStrip, pyLstrip, pyIsSpace, sepUnjoin, junkChars, toL]

/-- Witness for C1 at a concrete input (mismatched counts, one-word
response): reconstruction still yields two entries. -/
theorem C1_reconstruction_count_witness :
    ∃ ls, unjoin_sentences (some (toL "a ◌ b ◌ ")) (some (toL "x")) sepUnjoin =
        .lines ls ∧
      ls.length = (originalLinesOf sepUnjoin (toL "a ◌ b ◌ ")).length :=
  C1_reconstruction_count (toL "a ◌ b ◌ ") (toL "x")
    (by simp +decide [owcOf, originalLinesOf, procLines, procFrag, pySplit,
      pyReplace, pyStrip, pyLstrip, pyIsSpace, wordsOf, sepUnjoin, junkChars, toL])
    (by simp +decide [mwcOf, modifiedLinesOf, fixupModified, procLines, procFrag,
      pySplit, pyReplace, pyStrip, pyLstrip, pyIsSpace, wordsOf, pyJoin,
      sepUnjoin, junkChars, toL])

/-! ### Word machinery -/

/-- A word as produced by Python's `str.split()`: non-empty and free of
whitespace. -/
def isWord (w : Str) : Prop := w ≠ [] ∧ ∀ c ∈ w, pyIsSpace c = false

/-- `str.split()` of a single word. -/
theorem wordsOf_single (w : Str) (hw : isWord w) : wordsOf w = [w] := by
  unfold wordsOf
  rw [List.splitOnP_eq_single pyIsSpace w (fun x hx => by simp [hw.2 x hx])]
  simp [hw.1]

/-- `str.split()` of a word, a space, and a remainder. -/
theorem wordsOf_word_space (w t : Str) (hw : isWord w) :
    wordsOf (w ++ ' ' :: t) = w :: wordsOf t := by
  unfold wordsOf
  rw [List.splitOnP_first pyIsSpace w (fun x hx => by simp [hw.2 x hx]) ' ' (by decide) t]
  simp [hw.1]

/-- `str.split()` recovers the word list from a single-space join. -/
theorem wordsOf_join (ws : List Str) (h : ∀ w ∈ ws, isWord w) :
    wordsOf (pyJoin [' '] ws) = ws := by
  induction ws with
  | nil => rfl
  | cons w rest ih =>
    rcases rest with _ | ⟨w2, rest'⟩
    · exact wordsOf_single w (h w (by simp))
    · have : pyJoin [' '] (w :: w2 :: rest') = w ++ ' ' :: pyJoin [' '] (w2 :: rest') := by
        simp [pyJoin]
      rw [this, wordsOf_word_space w _ (h w (by simp)),
        ih (fun x hx => h x (List.mem_cons_of_mem _ hx))]

/-- Every fragment produced by `splitOnP` is free of separator
elements. -/
theorem splitOnP_frag_not (p : Char → Bool) (s : Str) :
    ∀ w ∈ s.splitOnP p, ∀ c ∈ w, p c = false := by
  induction s with
  | nil =>
    intro w hw c hc
    rw [List.splitOnP_nil] at hw
    simp at hw
    subst hw
    simp at hc
  | cons a t ih =>
    intro w hw c hc
    rw [List.splitOnP_cons] at hw
    by_cases hp : p a
    · rw [if_pos hp] at hw
      rcases List.mem_cons.mp hw with h | h
      · subst h; simp at hc
      · exact ih w h c hc
    · rw [if_neg hp] at hw
      obtain ⟨h0, r, hr⟩ : ∃ h0 r, t.splitOnP p = h0 :: r := by
        rcases he : t.splitOnP p with _ | ⟨h0, r⟩
        · exact absurd he (List.splitOnP_ne_nil p t)
        · exact ⟨h0, r, rfl⟩
      rw [hr] at hw
      simp only [List.modifyHead, List.mem_cons] at hw
      rcases hw with h | h
      · subst h
        rcases List.mem_cons.mp hc with h | h
        · subst h; exact Bool.of_not_eq_true hp
        · exact ih h0 (hr ▸ List.mem_cons_self h0 r) c h
      · exact ih w (hr ▸ List.mem_cons_of_mem h0 h) c hc

/-- Every entry of `str.split()` is a word. -/
theorem wordsOf_isWord (s : Str) : ∀ w ∈ wordsOf s, isWord w := by
  intro w hw
  unfold wordsOf at hw
  have h1 := List.mem_filter.mp hw
  refine ⟨by simpa using h1.2, fun c hc => ?_⟩
  exact splitOnP_frag_not pyIsSpace s w h1.1 c hc

/-! ### C5: the line wrapper -/

/-- Loop invariant of `sslAux`: fewer than `max_lines - 1` completed
lines on entry; then at most `max_lines` lines come out and the words
of the output are exactly the completed lines' words, the pending
line's words, and the remaining words, in order. -/
theorem sslAux_spec (widthFn : Str → ℚ) (maxLines : ℤ) (tgt : ℚ) :
    ∀ (ws lines cur : List Str) (curw : ℚ),
      (∀ w ∈ ws, isWord w) → (∀ w ∈ cur, isWord w) →
      (lines.length : ℤ) < maxLines - 1 →
      ((sslAux widthFn maxLines tgt ws lines cur curw).length : ℤ) ≤ maxLines ∧
      ((sslAux widthFn maxLines tgt ws lines cur curw).map wordsOf).flatten =
        (lines.map wordsOf).flatten ++ cur ++ ws := by
  intro ws
  induction ws with
  | nil =>
    intro lines cur curw hws hcur hlen
    simp only [sslAux]
    by_cases hc : cur ≠ [] ∧ (lines.length : ℤ) < maxLines
    · rw [if_pos hc]
      refine ⟨?_, ?_⟩
      · simp only [List.length_append, List.length_singleton]
        push_cast
        omega
      · simp only [List.map_append, List.map_singleton, List.flatten_append,
          wordsOf_join cur hcur]
        simp
    · rw [if_neg hc]
      have hc' : cur = [] := by
        rcases not_and_or.mp hc with h | h
        · exact not_not.mp h
        · exact absurd (by omega : (lines.length : ℤ) < maxLines) h
      subst hc'
      exact ⟨by omega, by simp⟩
  | cons w rest ih =>
    intro lines cur curw hws hcur hlen
    have hw : isWord w := hws w (by simp)
    have hrest : ∀ x ∈ rest, isWord x := fun x hx => hws x (List.mem_cons_of_mem _ hx)
    simp only [sslAux]
    by_cases hacc : curw + widthFn (w ++ [' ']) < tgt ∨ cur = [] ∨
        (is_punctuation_end w ∧
          ¬ (cur ≠ [] ∧ is_punctuation_end (cur.getLastD []))) ∨
        (cur.length ≥ 2 ∧ (cur.getLastD []).length ≤ 3 ∧
          ¬ ((cur.getD (cur.length - 2) []).length ≤ 3))
    · rw [if_pos hacc]
      simp only
      rw [if_neg (by omega : ¬ (lines.length : ℤ) = maxLines - 1)]
      have h := ih lines (cur ++ [w]) (curw + widthFn (w ++ [' '])) hrest
        (fun x hx => by
          rcases List.mem_append.mp hx with h | h
          · exact hcur x h
          · rw [List.mem_singleton] at h; exact h ▸ hw) hlen
      refine ⟨h.1, ?_⟩
      rw [h.2]
      simp [List.append_assoc]
    · rw [if_neg hacc]
      simp only
      by_cases hbr : ((lines ++ [pyJoin [' '] cur]).length : ℤ) = maxLines - 1
      · rw [if_pos hbr]
        simp only [List.length_append, List.length_singleton] at hbr
        refine ⟨?_, ?_⟩
        · simp only [List.length_append, List.length_singleton]
          push_cast at hbr ⊢
          omega
        · simp only [List.map_append, List.map_singleton, List.flatten_append,
            wordsOf_join cur hcur,
            wordsOf_join (w :: rest) (fun x hx => hws x hx)]
          simp [List.append_assoc]
      · rw [if_neg hbr]
        have hlen' : ((lines ++ [pyJoin [' '] cur]).length : ℤ) < maxLines - 1 := by
          simp only [List.length_append, List.length_singleton] at hbr ⊢
          push_cast at hbr ⊢
          omega
        have h := ih (lines ++ [pyJoin [' '] cur]) [w] (widthFn (w ++ [' ']))
          hrest (fun x hx => by rw [List.mem_singleton] at hx; exact hx ▸ hw) hlen'
        refine ⟨h.1, ?_⟩
        rw [h.2]
        simp only [List.map_append, List.map_singleton, List.flatten_append,
          wordsOf_join cur hcur]
        simp [List.append_assoc]

/-- C5.  For every width function, text, `max_width` and `max_lines`:
the text comes back unchanged as a one-element list whenever its
measured width is at most 80% of `max_width` or `max_lines < 2`;
otherwise at most `max_lines` lines come back and their words,
concatenated in order, are exactly the words of the input. -/
theorem C5_wrap_at_most_max_lines_conserving_words (widthFn : Str → ℚ)
    (text : Str) (maxWidth : ℚ) (maxLines : ℤ) :
    ((widthFn text ≤ maxWidth * (8 / 10) ∨ maxLines < 2) →
      split_string_to_max_lines widthFn text maxWidth maxLines = [text]) ∧
    (¬ (widthFn text ≤ maxWidth * (8 / 10) ∨ maxLines < 2) →
      ((split_string_to_max_lines widthFn text maxWidth maxLines).length : ℤ) ≤
          maxLines ∧
        ((split_string_to_max_lines widthFn text maxWidth maxLines).map
            wordsOf).flatten = wordsOf text) := by
  constructor
  · intro h
    simp only [split_string_to_max_lines, if_pos h]
  · intro h
    have h2 : 2 ≤ maxLines := by
      rcases not_or.mp h with ⟨_, h2⟩
      omega
    simp only [split_string_to_max_lines, if_neg h]
    have hs := sslAux_spec widthFn maxLines (widthFn text / (maxLines : ℚ))
      (wordsOf text) [] [] 0 (wordsOf_isWord text) (by simp) (by simp; omega)
    exact ⟨hs.1, by rw [hs.2]; simp⟩

/-- Witness for C5 (the spec's own example): measuring 10 pixels per
character, `"short text"` at `max_width = 10000`, `max_lines = 2` is
under the 80% threshold and comes back unchanged. -/
theorem C5_wrap_witness :
    split_string_to_max_lines (fun s => (s.length : ℚ) * 10) (toL "short text")
      10000 2 = [toL "short text"] :=
  (C5_wrap_at_most_max_lines_conserving_words (fun s => (s.length : ℚ) * 10)
    (toL "short text") 10000 2).1 (by norm_num [toL])

/-! ### C6: the fallback chain never raises -/

/-- When every provider call raises, the whole-batch attempt loop
exhausts its attempts without a result. -/
theorem normalAttempts_all_fail (oracle : ℕ → Str → Option Str)
    (h : ∀ k t, oracle k t = none) (chunk : Str) (expected : ℕ) :
    ∀ (n k : ℕ), normalAttempts oracle chunk expected n k = (none, k + n) := by
  intro n
  induction n with
  | zero => intro k; rfl
  | succ m ih =>
    intro k
    simp only [normalAttempts, h k chunk, ih]
    have he : k + 1 + m = k + (m + 1) := by omega
    rw [he]

/-- When every provider call raises, the hard-separator loop exhausts
its attempts without a result. -/
theorem hardAttempts_all_fail (oracle : ℕ → Str → Option Str)
    (h : ∀ k t, oracle k t = none) (chunk : Str) (expected : ℕ) :
    ∀ (n i k : ℕ), hardAttempts oracle chunk expected n i k = (none, k + n) := by
  intro n
  induction n with
  | zero => intro i k; rfl
  | succ m ih =>
    intro i k
    simp only [hardAttempts, h, ih]
    have he : k + 1 + m = k + (m + 1) := by omega
    rw [he]

/-- When every provider call raises, the per-line loop keeps every
(stripped) line unchanged. -/
theorem tcplAux_all_fail (oracle : ℕ → Str → Option Str)
    (h : ∀ k t, oracle k t = none) :
    ∀ (lines : List Str) (k : ℕ), (tcplAux oracle lines k).1 = lines := by
  intro lines
  induction lines with
  | nil => intro k; rfl
  | cons line rest ih =>
    intro k
    by_cases hl : line = []
    · subst hl
      simp [tcplAux, ih]
    · simp [tcplAux, hl, h, ih]

/-- C6.  For every chunk and every behaviour of the provider
(including raising on every call), `translate_chunk` returns a result
and never propagates an exception; and when every provider call fails,
the result is the untranslated original chunk content — its (stripped)
lines rejoined with the soft marker. -/
theorem C6_translate_chunk_never_raises (chunk : Str) (expected : ℕ)
    (oracle : ℕ → Str → Option Str) (startIdx : ℕ) :
    (∃ s, translate_chunk chunk expected oracle startIdx = .ok s) ∧
    ((∀ k t, oracle k t = none) →
      translate_chunk chunk expected oracle startIdx =
        .ok (pyJoin sepL ((pySplit sepL chunk).map pyStrip))) := by
  constructor
  · simp only [translate_chunk]
    rcases hn : normalAttempts oracle chunk expected
        (if (strip_separators chunk).length > 20 then 3 else 1) 0 with ⟨o1, k1⟩
    rcases o1 with _ | t
    · simp only
      rcases hh : hardAttempts oracle chunk expected 3 startIdx k1 with ⟨oh, k2⟩
      rcases oh with _ | t
      · exact ⟨(translate_chunk_per_line chunk oracle k2).1, by simp⟩
      · exact ⟨t, by simp⟩
    · exact ⟨t, by simp⟩
  · intro h
    simp only [translate_chunk, normalAttempts_all_fail oracle h chunk expected,
      hardAttempts_all_fail oracle h chunk expected, translate_chunk_per_line,
      tcplAux_all_fail oracle h]

/-- Witness for C6: with a provider that always raises, the chunk
`"ab ◌ "` is returned untranslated. -/
theorem C6_translate_chunk_never_raises_witness :
    translate_chunk (toL "ab ◌ ") 1 (fun _ _ => none) 0 = .ok (toL "ab ◌ ") := by
  have h := (C6_translate_chunk_never_raises (toL "ab ◌ ") 1 (fun _ _ => none) 0).2
    (fun _ _ => rfl)
  rw [h]
  simp +decide [pySplit, pyStrip, pyIsSpace, pyJoin, sepL, toL]

/-! ### Scanning lemmas for the greedy split / replace / count

The soft marker `" ◌ "` owes its recoverability to the fact that `'◌'`
occurs in cue texts not at all; the following lemmas make the greedy
left-to-right scans of `pySplit` / `pyReplace` / `pyCount` walk through
marker-free stretches without matching. -/

/-- `chunkOf ls` is the canonical chunk form produced by the packer:
every line followed by the soft marker. -/
def chunkOf (ls : List Str) : Str := (ls.map (fun l => l ++ sepL)).flatten

/-- Splitting on a single character steps over a stretch free of it. -/
theorem pySplit_single_step (a : Char) (x t : Str) (hx : a ∉ x) :
    pySplit [a] (x ++ a :: t) = x :: pySplit [a] t := by
  induction x with
  | nil =>
    simp [pySplit, List.isPrefixOf]
  | cons c x' ih =>
    have hac : a ≠ c := fun h => hx (h ▸ List.mem_cons_self c x')
    have ih' := ih (fun h => hx (List.mem_cons_of_mem c h))
    have hpre : ¬ (([a] : Str) ≠ [] ∧ ([a] : Str).isPrefixOf (c :: (x' ++ a :: t)) = true) := by
      rintro ⟨-, h⟩
      simp only [List.isPrefixOf, Bool.and_eq_true, beq_iff_eq] at h
      exact hac h.1
    simp only [List.cons_append, pySplit]
    rw [dif_neg hpre]
    rw [ih']

/-- Splitting on the soft marker steps over a marker-free stretch. -/
theorem pySplit_sepL_step (x t : Str) (hx : '◌' ∉ x) :
    pySplit sepL (x ++ sepL ++ t) = x :: pySplit sepL t := by
  induction x with
  | nil =>
    simp [sepL, pySplit, List.isPrefixOf]
  | cons c x' ih =>
    have ih' := ih (fun h => hx (List.mem_cons_of_mem c h))
    have hpre : ¬ (sepL ≠ [] ∧ sepL.isPrefixOf (c :: (x' ++ sepL ++ t)) = true) := by
      rintro ⟨-, h⟩
      rcases x' with _ | ⟨d, x''⟩
      · simp [sepL, List.isPrefixOf] at h
      · simp only [sepL, List.isPrefixOf, List.cons_append, Bool.and_eq_true,
          beq_iff_eq] at h
        apply hx
        rw [h.2.1]
        exact List.mem_cons_of_mem c (List.mem_cons_self d x'')
    simp only [List.cons_append, pySplit]
    rw [dif_neg hpre]
    rw [ih']

/-- Replacement scans past characters that cannot start the pattern. -/
theorem pyReplace_scan (p0 : Char) (p' rep x t : Str) (hx : p0 ∉ x) :
    pyReplace (p0 :: p') rep (x ++ t) = x ++ pyReplace (p0 :: p') rep t := by
  induction x with
  | nil => simp
  | cons c x' ih =>
    have hc : p0 ≠ c := fun h => hx (h ▸ List.mem_cons_self c x')
    have ih' := ih (fun h => hx (List.mem_cons_of_mem c h))
    have hpre : ¬ ((p0 :: p') ≠ [] ∧ (p0 :: p').isPrefixOf (c :: (x' ++ t)) = true) := by
      rintro ⟨-, h⟩
      simp only [List.isPrefixOf, Bool.and_eq_true, beq_iff_eq] at h
      exact hc h.1
    simp only [List.cons_append, pyReplace]
    rw [dif_neg hpre]
    rw [ih']

/-- Two-character replacement: step over a stretch free of the second
pattern character, then rewrite the pattern occurrence itself. -/
theorem pyReplace_pair_step (a b : Char) (rep x t : Str) (hab : a ≠ b)
    (hx : b ∉ x) :
    pyReplace [a, b] rep (x ++ a :: b :: t) = x ++ rep ++ pyReplace [a, b] rep t := by
  induction x with
  | nil =>
    simp [pyReplace, List.isPrefixOf]
  | cons c x' ih =>
    have ih' := ih (fun h => hx (List.mem_cons_of_mem c h))
    have hpre : ¬ (([a, b] : Str) ≠ [] ∧
        ([a, b] : Str).isPrefixOf (c :: (x' ++ a :: b :: t)) = true) := by
      rintro ⟨-, h⟩
      rcases x' with _ | ⟨d, x''⟩
      · simp only [List.isPrefixOf, List.nil_append, Bool.and_eq_true, beq_iff_eq] at h
        exact hab h.2.1.symm
      · simp only [List.isPrefixOf, List.cons_append, Bool.and_eq_true, beq_iff_eq] at h
        apply hx
        rw [h.2.1]
        exact List.mem_cons_of_mem c (List.mem_cons_self d x'')
    simp only [List.cons_append, pyReplace]
    rw [dif_neg hpre]
    rw [ih']

/-- Absence of adjacent pairs `a, b` in a string, scanning windows of
width two. -/
def pairFree (a b : Char) : Str → Prop
  | [] => True
  | [_] => True
  | c :: d :: t => ¬ (c = a ∧ d = b) ∧ pairFree a b (d :: t)

/-- A two-character replacement is the identity on a pair-free string. -/
theorem pyReplace_pair_noop (a b : Char) (rep : Str) :
    ∀ (s : Str), pairFree a b s → pyReplace [a, b] rep s = s := by
  intro s
  induction s with
  | nil => intro h; simp [pyReplace]
  | cons c t ih =>
    intro h
    have hpre : ¬ (([a, b] : Str) ≠ [] ∧ ([a, b] : Str).isPrefixOf (c :: t) = true) := by
      rintro ⟨-, hp⟩
      rcases t with _ | ⟨d, t'⟩
      · simp [List.isPrefixOf] at hp
      · simp only [List.isPrefixOf, Bool.and_eq_true, beq_iff_eq] at hp
        exact h.1 ⟨hp.1.symm, hp.2.1.symm⟩
    have ht : pairFree a b t := by
      rcases t with _ | ⟨d, t'⟩
      · trivial
      · exact h.2
    simp only [pyReplace]
    rw [dif_neg hpre, ih ht]

/-- Pair-freeness extends over a stretch free of the first character. -/
theorem pairFree_append (a b : Char) (x rest : Str) (hx : a ∉ x)
    (h : pairFree a b rest) : pairFree a b (x ++ rest) := by
  induction x with
  | nil => simpa using h
  | cons c x' ih =>
    have hca : c ≠ a := fun hc => hx (hc ▸ List.mem_cons_self c x')
    have ih' := ih (fun hm => hx (List.mem_cons_of_mem c hm))
    rcases hx' : x' ++ rest with _ | ⟨d, t⟩
    · simp [List.cons_append, hx', pairFree]
    · simp only [List.cons_append, hx', pairFree]
      refine ⟨fun hc => hca hc.1, ?_⟩
      rw [← hx']
      exact ih'

/-- Counting the soft marker steps over a marker-free stretch. -/
theorem pyCount_sepL_step (x t : Str) (hx : '◌' ∉ x) :
    pyCount sepL (x ++ sepL ++ t) = 1 + pyCount sepL t := by
  induction x with
  | nil =>
    simp [sepL, pyCount, List.isPrefixOf]
  | cons c x' ih =>
    have ih' := ih (fun h => hx (List.mem_cons_of_mem c h))
    have hpre : ¬ (sepL ≠ [] ∧ sepL.isPrefixOf (c :: (x' ++ sepL ++ t)) = true) := by
      rintro ⟨-, h⟩
      rcases x' with _ | ⟨d, x''⟩
      · simp [sepL, List.isPrefixOf] at h
      · simp only [sepL, List.isPrefixOf, List.cons_append, Bool.and_eq_true,
          beq_iff_eq] at h
        apply hx
        rw [h.2.1]
        exact List.mem_cons_of_mem c (List.mem_cons_self d x'')
    simp only [List.cons_append, pyCount]
    rw [dif_neg hpre]
    rw [ih']

/-- A marker-free string contains no marker occurrence. -/
theorem pyCount_sepL_zero (s : Str) (hs : '◌' ∉ s) : pyCount sepL s = 0 := by
  induction s with
  | nil => simp [pyCount]
  | cons c t ih =>
    have ih' := ih (fun h => hs (List.mem_cons_of_mem c h))
    have hpre : ¬ (sepL ≠ [] ∧ sepL.isPrefixOf (c :: t) = true) := by
      rintro ⟨-, h⟩
      rcases t with _ | ⟨d, t'⟩
      · simp [sepL, List.isPrefixOf] at h
      · simp only [sepL, List.isPrefixOf, Bool.and_eq_true, beq_iff_eq] at h
        apply hs
        rw [h.2.1]
        exact List.mem_cons_of_mem c (List.mem_cons_self d t')
    simp only [pyCount]
    rw [dif_neg hpre]
    exact ih'

/-! ### C2: the packer partitions the cue sequence -/

/-- The placeholder character is not the marker character. -/
theorem fixLine_marker_free (l : Str) (h : '◌' ∉ l) : '◌' ∉ fixLine l := by
  unfold fixLine
  split
  · decide
  · exact h

/-- Unfolding `chunkOf` one line at a time. -/
theorem chunkOf_cons (l : Str) (ls : List Str) :
    chunkOf (l :: ls) = l ++ (sepL ++ chunkOf ls) := by
  simp [chunkOf]

/-- When no cue needs truncation, the packing loop emits, in order,
exactly the concatenation of `line + marker` over all cues (prefixed by
the incoming buffer): flushing moves text between batches but never
drops, duplicates, or reorders it. -/
theorem jsAux_flatten (mc : ℕ) (lines : List Str)
    (hno : ∀ l ∈ lines, (fixLine l).length + sepL.length ≤ mc) :
    ∀ cc, (jsAux mc lines cc).flatten = cc ++ chunkOf (lines.map fixLine) := by
  induction lines with
  | nil =>
    intro cc
    simp only [jsAux]
    split
    · simp [chunkOf, *]
    · simp [chunkOf]
  | cons l rest ih =>
    intro cc
    have hT : ¬ (fixLine l).length + sepL.length > mc := by
      have := hno l (by simp)
      omega
    have ih' := ih (fun x hx => hno x (List.mem_cons_of_mem l hx))
    have hchunk : chunkOf ((l :: rest).map fixLine) =
        fixLine l ++ sepL ++ chunkOf (rest.map fixLine) := by
      simp [chunkOf]
    simp only [jsAux]
    rw [if_neg hT]
    by_cases hF : cc ≠ [] ∧ cc.length + (fixLine l).length + sepL.length > mc
    · simp only [if_pos hF]
      rcases rest with _ | ⟨n0, rest'⟩
      · simp [hchunk, chunkOf]
      · by_cases hE : endsSentence (fixLine l) = false
        · simp [hE, ih', chunkOf_cons]
        · have hE' : endsSentence (fixLine l) = true := by
            revert hE
            cases endsSentence (fixLine l) <;> simp
          simp only [hE']
          split
          · simp [ih', chunkOf_cons]
          · split
            · simp [ih', chunkOf_cons]
            · simp [ih', chunkOf_cons]
    · simp only [if_neg hF]
      rcases rest with _ | ⟨n0, rest'⟩
      · simp [hchunk, chunkOf]
      · by_cases hE : endsSentence (fixLine l) = false
        · simp [hE, ih', chunkOf_cons]
        · have hE' : endsSentence (fixLine l) = true := by
            revert hE
            cases endsSentence (fixLine l) <;> simp
          simp only [hE']
          split
          · simp [ih', chunkOf_cons]
          · split
            · simp [ih', chunkOf_cons]
            · simp [ih', chunkOf_cons]

/-- Splitting the canonical chunk form on the soft marker recovers the
lines followed by one trailing empty fragment. -/
theorem pySplit_sepL_chunkOf (ls : List Str) (h : ∀ l ∈ ls, '◌' ∉ l) :
    pySplit sepL (chunkOf ls) = ls ++ [[]] := by
  induction ls with
  | nil =>
    simp [chunkOf, pySplit]
  | cons l rest ih =>
    have hstep := pySplit_sepL_step l (chunkOf rest) (h l (by simp))
    have : chunkOf (l :: rest) = l ++ sepL ++ chunkOf rest := by
      simp [chunkOf]
    rw [this, hstep, ih (fun x hx => h x (List.mem_cons_of_mem l hx))]
    simp

/-- C2 (amended).  Provided no cue text contains the marker character
and every cue (after empty-cue placeholder substitution) fits in the
budget together with its marker, the batches partition the cue
sequence: splitting the in-order concatenation of all batches on the
marker yields exactly one entry per input cue, in the original order
(empty cues appearing as the invisible placeholder), plus the single
trailing empty fragment after the final marker. -/
theorem C2_pack_partition (lines : List Str) (mc : ℕ)
    (hfree : ∀ l ∈ lines, '◌' ∉ l)
    (hfit : ∀ l ∈ lines, (fixLine l).length + sepL.length ≤ mc) :
    pySplit sepL ((join_sentences lines mc).flatten) =
      lines.map fixLine ++ [[]] := by
  rw [join_sentences, jsAux_flatten mc lines hfit []]
  rw [List.nil_append]
  refine pySplit_sepL_chunkOf (lines.map fixLine) ?_
  intro l hl
  rcases List.mem_map.mp hl with ⟨x, hx, rfl⟩
  exact fixLine_marker_free x (hfree x hx)

/-- Counterexample to C2 as stated: a single cue that itself contains
the marker character splits into two entries, so the partition fails
without the marker-free hypothesis (the truncation pathway of C7
violates it as well). -/
theorem C2_counterexample :
    pySplit sepL ((join_sentences [toL "x ◌ y"] 100).flatten) =
      [toL "x", toL "y", []] ∧
    ([toL "x", toL "y", []] : List Str).length ≠ [toL "x ◌ y"].length + 1 := by
  constructor
  · simp +decide [join_sentences, jsAux, fixLine, truncEntry, endsSentence,
      sentenceEndings, pySplit, sepL, toL, List.isPrefixOf]
  · decide

/-- Witness for C2 at a concrete input. -/
theorem C2_pack_partition_witness :
    pySplit sepL ((join_sentences [toL "ab", toL "c"] 100).flatten) =
      [toL "ab", toL "c", []] :=
  (C2_pack_partition [toL "ab", toL "c"] 100 (by decide) (by decide)).trans
    (by decide)

/-! ### C10: the per-line fallback preserves marker count -/

/-- Stripping only removes characters. -/
theorem pyStrip_mem (c : Char) (l : Str) (h : c ∈ pyStrip l) : c ∈ l := by
  unfold pyStrip at h
  rw [List.mem_reverse] at h
  have h1 := List.dropWhile_sublist (l := (l.dropWhile pyIsSpace).reverse) pyIsSpace
  have h2 := h1.mem h
  rw [List.mem_reverse] at h2
  exact (List.dropWhile_sublist pyIsSpace).mem h2

/-- The soft marker count of the canonical chunk form is the number of
lines, when the lines are marker-free. -/
theorem pyCount_chunkOf (ls : List Str) (h : ∀ l ∈ ls, '◌' ∉ l) :
    pyCount sepL (chunkOf ls) = ls.length := by
  induction ls with
  | nil => simp [chunkOf, pyCount]
  | cons l rest ih =>
    rw [chunkOf_cons, ← List.append_assoc,
      pyCount_sepL_step l (chunkOf rest) (h l (by simp)),
      ih (fun x hx => h x (List.mem_cons_of_mem l hx))]
    simp [Nat.add_comm]

/-- Joining marker-free fields with the soft marker yields one marker
occurrence per join point. -/
theorem pyCount_pyJoin (fields : List Str) (hne : fields ≠ [])
    (h : ∀ f ∈ fields, '◌' ∉ f) :
    pyCount sepL (pyJoin sepL fields) + 1 = fields.length := by
  induction fields with
  | nil => exact absurd rfl hne
  | cons f rest ih =>
    rcases rest with _ | ⟨f2, rest'⟩
    · simp [pyJoin, pyCount_sepL_zero f (h f (by simp))]
    · have hj : pyJoin sepL (f :: f2 :: rest') = f ++ sepL ++ pyJoin sepL (f2 :: rest') := by
        simp [pyJoin]
      rw [hj, pyCount_sepL_step f _ (h f (by simp))]
      have := ih (by simp) (fun x hx => h x (List.mem_cons_of_mem f hx))
      simp only [List.length_cons] at *
      omega

/-- The per-line loop emits one output field per input field. -/
theorem tcplAux_length (oracle : ℕ → Str → Option Str) :
    ∀ (lines : List Str) (k : ℕ), (tcplAux oracle lines k).1.length = lines.length := by
  intro lines
  induction lines with
  | nil => intro k; rfl
  | cons line rest ih =>
    intro k
    by_cases hl : line = []
    · subst hl; simp [tcplAux, ih]
    · rcases ho : oracle k line with _ | t
      · simp [tcplAux, hl, ho, ih]
      · simp [tcplAux, hl, ho, ih]

/-- Every output field of the per-line loop is marker-free when the
input fields and all provider responses are. -/
theorem tcplAux_marker_free (oracle : ℕ → Str → Option Str)
    (horacle : ∀ n t s, oracle n t = some s → '◌' ∉ s) :
    ∀ (lines : List Str) (k : ℕ), (∀ l ∈ lines, '◌' ∉ l) →
      ∀ f ∈ (tcplAux oracle lines k).1, '◌' ∉ f := by
  intro lines
  induction lines with
  | nil => intro k h f hf; simp [tcplAux] at hf
  | cons line rest ih =>
    intro k h f hf
    have hrest := fun x hx => h x (List.mem_cons_of_mem line hx)
    by_cases hl : line = []
    · subst hl
      simp only [tcplAux, if_pos rfl] at hf
      rcases List.mem_cons.mp hf with hf | hf
      · subst hf; simp
      · exact ih k hrest f hf
    · rcases ho : oracle k line with _ | t
      · simp only [tcplAux, if_neg hl, ho] at hf
        rcases List.mem_cons.mp hf with hf | hf
        · rw [hf]; exact h line (by simp)
        · exact ih (k + 1) hrest f hf
      · simp only [tcplAux, if_neg hl, ho] at hf
        rcases List.mem_cons.mp hf with hf | hf
        · rw [hf]
          split
          · exact h line (by simp)
          · exact horacle k line t ho
        · exact ih (k + 1) hrest f hf

/-- C10 (amended).  For every packer-form chunk over marker-free lines
and every behaviour of the per-line provider whose responses never
contain the marker character, the string returned by
`translate_chunk_per_line` contains exactly as many soft-marker
occurrences as the input chunk.  (A provider response containing the
marker adds occurrences — see the counterexample.) -/
theorem C10_per_line_marker_count (ls : List Str) (oracle : ℕ → Str → Option Str)
    (k : ℕ) (hfree : ∀ l ∈ ls, '◌' ∉ l)
    (horacle : ∀ n t s, oracle n t = some s → '◌' ∉ s) :
    pyCount sepL (translate_chunk_per_line (chunkOf ls) oracle k).1 =
      pyCount sepL (chunkOf ls) := by
  have hsplit := pySplit_sepL_chunkOf ls hfree
  have hlines : ∀ l ∈ (pySplit sepL (chunkOf ls)).map pyStrip, '◌' ∉ l := by
    intro l hl
    rcases List.mem_map.mp hl with ⟨x, hx, rfl⟩
    rw [hsplit] at hx
    intro hc
    have hxm := pyStrip_mem '◌' x hc
    rcases List.mem_append.mp hx with h | h
    · exact hfree x h hxm
    · rw [List.mem_singleton] at h
      subst h
      simp at hxm
  have hout := tcplAux_marker_free oracle horacle
    ((pySplit sepL (chunkOf ls)).map pyStrip) k hlines
  have hlen := tcplAux_length oracle ((pySplit sepL (chunkOf ls)).map pyStrip) k
  have hne : (tcplAux oracle ((pySplit sepL (chunkOf ls)).map pyStrip) k).1 ≠ [] := by
    intro h
    rw [h] at hlen
    simp [hsplit] at hlen
  have hcount := pyCount_pyJoin _ hne hout
  have hlen2 : ((pySplit sepL (chunkOf ls)).map pyStrip).length = ls.length + 1 := by
    rw [List.length_map, hsplit]
    simp
  rw [hlen, hlen2] at hcount
  rw [translate_chunk_per_line]
  simp only
  rw [pyCount_chunkOf ls hfree]
  omega

/-- Counterexample to C10 as stated: a provider response containing the
soft marker makes the rejoined output contain two markers where the
input chunk contained one. -/
theorem C10_counterexample :
    pyCount sepL (translate_chunk_per_line (toL "a ◌ ")
        (fun _ _ => some (toL "x ◌ y")) 0).1 = 2 ∧
    pyCount sepL (toL "a ◌ ") = 1 := by
  constructor
  · simp +decide [translate_chunk_per_line, tcplAux, pySplit, pyStrip, pyIsSpace,
      pyJoin, pyCount, sepL, toL, List.isPrefixOf]
  · simp +decide [pyCount, sepL, toL, List.isPrefixOf]

/-- Witness for C10 at a concrete input: a marker-free response keeps
the marker count at one. -/
theorem C10_per_line_marker_count_witness :
    pyCount sepL (translate_chunk_per_line (chunkOf [toL "a"])
        (fun _ _ => some (toL "x")) 0).1 =
      pyCount sepL (chunkOf [toL "a"]) :=
  C10_per_line_marker_count [toL "a"] (fun _ _ => some (toL "x")) 0
    (by decide)
    (fun n t s hs => by
      cases hs
      decide)

/-! ### C3: round-trip identity under an identity provider -/

instance pairFreeDecidable (a b : Char) : (s : Str) → Decidable (pairFree a b s)
  | [] => isTrue trivial
  | [_] => isTrue trivial
  | _ :: d :: t =>
    haveI : Decidable (pairFree a b (d :: t)) := pairFreeDecidable a b (d :: t)
    inferInstanceAs (Decidable (_ ∧ _))

/-- A cue line in canonical normalized form: non-empty, marker-free,
head neither whitespace nor cleanup punctuation, tail not whitespace,
and no double spaces.  Lines of this form pass through the fragment
cleanup of `unjoin_sentences` unchanged. -/
def normLine (l : Str) : Prop :=
  l ≠ [] ∧ '◌' ∉ l ∧
  l.head?.all (fun c => !pyIsSpace c && !junkChars.contains c) = true ∧
  l.getLast?.all (fun c => !pyIsSpace c) = true ∧
  pairFree ' ' ' ' l

theorem normLine_head (l : Str) (h : normLine l) (c : Char) (hc : l.head? = some c) :
    pyIsSpace c = false ∧ junkChars.contains c = false := by
  have h3 := h.2.2.1
  rw [hc] at h3
  simp only [Option.all_some, Bool.and_eq_true, Bool.not_eq_true'] at h3
  exact h3

theorem normLine_getLast (l : Str) (h : normLine l) (c : Char)
    (hc : l.getLast? = some c) : pyIsSpace c = false := by
  have h4 := h.2.2.2.1
  rw [hc] at h4
  simpa using h4

/-- `dropWhile` is the identity when the head fails the predicate. -/
theorem dropWhile_eq_self_of_head (p : Char → Bool) (l : Str)
    (h : ∀ c, l.head? = some c → p c = false) : l.dropWhile p = l := by
  rcases l with _ | ⟨c, t⟩
  · rfl
  · rw [List.dropWhile_cons, if_neg]
    simp [h c rfl]

/-- Stripping is the identity on a normalized line. -/
theorem normLine_strip (l : Str) (h : normLine l) : pyStrip l = l := by
  unfold pyStrip
  rw [dropWhile_eq_self_of_head _ _ (fun c hc => (normLine_head l h c hc).1),
    dropWhile_eq_self_of_head _ _ (fun c hc => by
      rw [List.head?_reverse] at hc
      exact normLine_getLast l h c hc),
    List.reverse_reverse]

/-- Stripping a normalized line padded by a trailing space. -/
theorem pyStrip_append_space (l : Str) (h : normLine l) :
    pyStrip (l ++ [' ']) = l := by
  unfold pyStrip
  have h1 : (l ++ [' ']).dropWhile pyIsSpace = l ++ [' '] := by
    refine dropWhile_eq_self_of_head _ _ (fun c hc => ?_)
    rcases hl : l with _ | ⟨d, t⟩
    · exact absurd hl h.1
    · rw [hl] at hc
      simp only [List.cons_append, List.head?_cons, Option.some.injEq] at hc
      rw [← hc]
      exact (normLine_head l h d (by rw [hl]; rfl)).1
  rw [h1]
  have h2 : (l ++ [' ']).reverse = ' ' :: l.reverse := by simp
  rw [h2, List.dropWhile_cons, if_pos (by decide : pyIsSpace ' ' = true),
    dropWhile_eq_self_of_head _ _ (fun c hc => by
      rw [List.head?_reverse] at hc
      exact normLine_getLast l h c hc),
    List.reverse_reverse]

/-- Stripping a normalized line padded by spaces on both sides. -/
theorem pyStrip_pad (l : Str) (h : normLine l) :
    pyStrip (' ' :: (l ++ [' '])) = l := by
  have hstep : pyStrip (' ' :: (l ++ [' '])) = pyStrip (l ++ [' ']) := by
    unfold pyStrip
    rw [List.dropWhile_cons, if_pos (by decide : pyIsSpace ' ' = true)]
  rw [hstep, pyStrip_append_space l h]

/-- The double-space replacement is the identity on a normalized line. -/
theorem normLine_replace_double (l : Str) (h : normLine l) :
    pyReplace (toL "  ") (toL " ") l = l := by
  have he : toL "  " = [' ', ' '] := rfl
  have he2 : toL " " = [' '] := rfl
  rw [he, he2]
  exact pyReplace_pair_noop ' ' ' ' [' '] l h.2.2.2.2

/-- The punctuation `lstrip` is the identity on a normalized line. -/
theorem normLine_lstrip (l : Str) (h : normLine l) :
    pyLstrip junkChars l = l := by
  unfold pyLstrip
  exact dropWhile_eq_self_of_head _ _ (fun c hc => (normLine_head l h c hc).2)

/-- The fragment cleanup maps any fragment stripping to a normalized
line to that line. -/
theorem procFrag_of_strip (f l : Str) (h : normLine l) (hs : pyStrip f = l) :
    procFrag f = l := by
  unfold procFrag
  rw [hs, normLine_replace_double l h, normLine_lstrip l h, if_pos h.1]

/-- One step of the fragment pipeline. -/
theorem procLines_cons (f : Str) (fs : List Str) :
    procLines (f :: fs) =
      (if pyStrip f = [] then []
       else if procFrag f = [] then []
       else if pyStrip (procFrag f) = [] then []
       else [procFrag f]) ++ procLines fs := by
  unfold procLines
  by_cases h1 : pyStrip f = []
  · simp [List.filter_cons, h1]
  · by_cases h2 : procFrag f = []
    · simp [List.filter_cons, h1, h2]
    · by_cases h3 : pyStrip (procFrag f) = []
      · simp [List.filter_cons, h1, h2, h3]
      · simp [List.filter_cons, h1, h2, h3]

/-- A fragment stripping to a normalized line survives the pipeline as
that line. -/
theorem procLines_keep (f l : Str) (fs : List Str) (h : normLine l)
    (hs : pyStrip f = l) :
    procLines (f :: fs) = l :: procLines fs := by
  rw [procLines_cons, procFrag_of_strip f l h hs, hs]
  rw [if_neg h.1, if_neg h.1, normLine_strip l h, if_neg h.1]
  rfl

/-- A blank fragment is dropped by the pipeline. -/
theorem procLines_drop (f : Str) (fs : List Str) (hs : pyStrip f = []) :
    procLines (f :: fs) = procLines fs := by
  rw [procLines_cons, if_pos hs]
  rfl

/-- Splitting on the single marker character steps over a marker-free
stretch (specialisation of `pySplit_single_step` to `separator_unjoin`). -/
theorem pySplit_sepUnjoin_step (x t : Str) (hx : '◌' ∉ x) :
    pySplit sepUnjoin (x ++ '◌' :: t) = x :: pySplit sepUnjoin t :=
  pySplit_single_step '◌' x t hx

/-- The original side of the round trip, after the first fragment:
every remaining fragment is a space-padded line, plus the trailing
blank fragment. -/
theorem origSide_tail (ls : List Str) (h : ∀ l ∈ ls, normLine l) :
    procLines (pySplit sepUnjoin (' ' :: chunkOf ls)) = ls := by
  induction ls with
  | nil =>
    have h1 : (' ' :: chunkOf [] : Str) = [' '] := rfl
    rw [h1]
    have hs : pySplit sepUnjoin [' '] = [[' ']] := by
      simp [sepUnjoin, pySplit, List.isPrefixOf]
    rw [hs, procLines_drop [' '] [] (by decide)]
    rfl
  | cons l rest ih =>
    have hl := h l (by simp)
    have hstep : (' ' :: chunkOf (l :: rest)) =
        (' ' :: (l ++ [' '])) ++ '◌' :: (' ' :: chunkOf rest) := by
      rw [chunkOf_cons]
      simp [sepL]
    rw [hstep, pySplit_sepUnjoin_step (' ' :: (l ++ [' '])) _ (by
      simp only [List.mem_cons, List.mem_append, List.mem_singleton]
      push_neg
      exact ⟨by decide, hl.2.1, by decide⟩)]
    rw [procLines_keep _ l _ hl (pyStrip_pad l hl),
      ih (fun x hx => h x (List.mem_cons_of_mem l hx))]

/-- The original side of the round trip recovers the lines. -/
theorem origSide (ls : List Str) (hne : ls ≠ []) (h : ∀ l ∈ ls, normLine l) :
    originalLinesOf sepUnjoin (chunkOf ls) = ls := by
  rcases ls with _ | ⟨l, rest⟩
  · exact absurd rfl hne
  · have hl := h l (by simp)
    rw [originalLinesOf]
    have hre : chunkOf (l :: rest) = (l ++ [' ']) ++ '◌' :: (' ' :: chunkOf rest) := by
      rw [chunkOf_cons]
      simp [sepL]
    rw [hre, pySplit_sepUnjoin_step (l ++ [' ']) _ (by
      simp only [List.mem_append, List.mem_singleton]
      push_neg
      exact ⟨hl.2.1, by decide⟩)]
    rw [procLines_keep _ l _ hl (pyStrip_append_space l hl),
      origSide_tail rest (fun x hx => h x (List.mem_cons_of_mem l hx))]

/-- Replacement rewrites an occurrence sitting at the head. -/
theorem pyReplace_head_match (p rep t : Str) (hp : p ≠ []) :
    pyReplace p rep (p ++ t) = rep ++ pyReplace p rep t := by
  rcases p with _ | ⟨c, p'⟩
  · exact absurd rfl hp
  · simp only [List.cons_append, pyReplace]
    rw [dif_pos ⟨by simp, by
      rw [List.isPrefixOf_iff_prefix]
      refine ⟨t, ?_⟩
      simp⟩]
    congr 1
    have : (c :: (p' ++ t)) = (c :: p') ++ t := by simp
    rw [this]
    have hd := List.drop_left (c :: p') t
    simpa using hd

/-- Step 1 of the response fix-up (`"◌ " → "◌"`) on the canonical
chunk: it erases the space after every marker. -/
theorem fixup_step1 (ls : List Str) (h : ∀ l ∈ ls, '◌' ∉ l) :
    pyReplace (sepUnjoin ++ [' ']) sepUnjoin (chunkOf ls) =
      (ls.map (fun l => l ++ [' ', '◌'])).flatten := by
  induction ls with
  | nil => simp [chunkOf, pyReplace]
  | cons l rest ih =>
    have hre : chunkOf (l :: rest) =
        (l ++ [' ']) ++ (('◌' :: [' ']) ++ chunkOf rest) := by
      rw [chunkOf_cons]
      simp [sepL]
    rw [hre]
    have hsep : (sepUnjoin ++ [' '] : Str) = '◌' :: [' '] := rfl
    have ih' := ih (fun x hx => h x (List.mem_cons_of_mem l hx))
    rw [hsep] at ih' ⊢
    rw [pyReplace_scan '◌' [' '] sepUnjoin (l ++ [' ']) _ (by
      simp only [List.mem_append, List.mem_singleton]
      push_neg
      exact ⟨h l (by simp), by decide⟩)]
    rw [pyReplace_head_match ('◌' :: [' ']) sepUnjoin (chunkOf rest) (by simp)]
    rw [ih']
    simp [sepUnjoin]

/-- Step 2 of the response fix-up (`" ◌" → "◌"`): it erases the space
before every marker. -/
theorem fixup_step2 (ls : List Str) (h : ∀ l ∈ ls, '◌' ∉ l) :
    pyReplace ([' '] ++ sepUnjoin) sepUnjoin
        ((ls.map (fun l => l ++ [' ', '◌'])).flatten) =
      (ls.map (fun l => l ++ ['◌'])).flatten := by
  induction ls with
  | nil => simp [pyReplace]
  | cons l rest ih =>
    have hre : ((l :: rest).map (fun l => l ++ [' ', '◌'])).flatten =
        l ++ ' ' :: '◌' :: (rest.map (fun l => l ++ [' ', '◌'])).flatten := by
      simp
    rw [hre]
    have hsep : ([' '] ++ sepUnjoin : Str) = [' ', '◌'] := rfl
    have ih' := ih (fun x hx => h x (List.mem_cons_of_mem l hx))
    rw [hsep] at ih' ⊢
    rw [pyReplace_pair_step ' ' '◌' sepUnjoin l _ (by decide) (h l (by simp))]
    rw [ih']
    simp [sepUnjoin]

/-- After steps 1–2 the marker is never followed by a cleanup
punctuation character, so steps 3–4 (`"◌." → ".◌"`, `"◌," → ",◌"`) are
the identity. -/
theorem pairFree_marker_flat (b : Char) (ls : List Str)
    (h : ∀ l ∈ ls, '◌' ∉ l ∧ l ≠ [] ∧ (∀ c, l.head? = some c → c ≠ b)) :
    pairFree '◌' b ((ls.map (fun l => l ++ ['◌'])).flatten) := by
  induction ls with
  | nil => trivial
  | cons l rest ih =>
    have hre : ((l :: rest).map (fun l => l ++ ['◌'])).flatten =
        l ++ ('◌' :: (rest.map (fun l => l ++ ['◌'])).flatten) := by
      simp
    rw [hre]
    refine pairFree_append '◌' b l _ (h l (by simp)).1 ?_
    have ih' := ih (fun x hx => h x (List.mem_cons_of_mem l hx))
    rcases rest with _ | ⟨l2, rest2⟩
    · trivial
    · rcases hl2 : l2 with _ | ⟨d, t2⟩
      · exact absurd hl2 (h l2 (by simp)).2.1
      · have hre2 : ((((d :: t2) :: rest2).map (fun l => l ++ ['◌'])).flatten : Str) =
            d :: (t2 ++ '◌' :: ((rest2.map (fun l => l ++ ['◌'])).flatten)) := by
          simp
        rw [hre2]
        refine ⟨?_, ?_⟩
        · rintro ⟨-, hd⟩
          exact (h l2 (by simp)).2.2 d (by rw [hl2]; rfl) hd
        · rw [← hre2]
          have hihl := ih'
          rw [hl2] at hihl
          exact hihl

/-- The full response fix-up on the canonical chunk glues every marker
to its line. -/
theorem fixup_id (ls : List Str) (h : ∀ l ∈ ls, normLine l) :
    fixupModified (chunkOf ls) = (ls.map (fun l => l ++ ['◌'])).flatten := by
  have hfree : ∀ l ∈ ls, '◌' ∉ l := fun l hl => (h l hl).2.1
  have hside : ∀ (b : Char), junkChars.contains b = true →
      ∀ l ∈ ls, '◌' ∉ l ∧ l ≠ [] ∧ (∀ c, l.head? = some c → c ≠ b) := by
    intro b hb l hl
    refine ⟨hfree l hl, (h l hl).1, fun c hc hcb => ?_⟩
    have h2 := (normLine_head l (h l hl) c hc).2
    rw [hcb, hb] at h2
    exact absurd h2 (by decide)
  unfold fixupModified
  rw [fixup_step1 ls hfree, fixup_step2 ls hfree]
  have h3 : (sepUnjoin ++ ['.'] : Str) = ['◌', '.'] := rfl
  have h4 : (sepUnjoin ++ [','] : Str) = ['◌', ','] := rfl
  rw [h3, h4]
  rw [pyReplace_pair_noop '◌' '.' _ _
      (pairFree_marker_flat '.' ls (hside '.' (by decide))),
    pyReplace_pair_noop '◌' ',' _ _
      (pairFree_marker_flat ',' ls (hside ',' (by decide)))]

/-- Splitting the fixed-up chunk on the single marker recovers the
lines plus one trailing empty fragment. -/
theorem pySplit_sepUnjoin_flat (ls : List Str) (h : ∀ l ∈ ls, '◌' ∉ l) :
    pySplit sepUnjoin ((ls.map (fun l => l ++ ['◌'])).flatten) = ls ++ [[]] := by
  induction ls with
  | nil => simp [sepUnjoin, pySplit]
  | cons l rest ih =>
    have hre : ((l :: rest).map (fun l => l ++ ['◌'])).flatten =
        l ++ '◌' :: (rest.map (fun l => l ++ ['◌'])).flatten := by
      simp
    rw [hre, pySplit_sepUnjoin_step l _ (h l (by simp)),
      ih (fun x hx => h x (List.mem_cons_of_mem l hx))]
    simp

/-- The fragment pipeline keeps normalized lines and drops the trailing
empty fragment. -/
theorem procLines_norm_append_nil (ls : List Str) (h : ∀ l ∈ ls, normLine l) :
    procLines (ls ++ [[]]) = ls := by
  induction ls with
  | nil =>
    rw [List.nil_append, procLines_drop [] [] rfl]
    rfl
  | cons l rest ih =>
    rw [List.cons_append,
      procLines_keep l l _ (h l (by simp)) (normLine_strip l (h l (by simp))),
      ih (fun x hx => h x (List.mem_cons_of_mem l hx))]

/-- The modified side of the round trip recovers the lines. -/
theorem modSide (ls : List Str) (h : ∀ l ∈ ls, normLine l) :
    modifiedLinesOf (chunkOf ls) = ls := by
  unfold modifiedLinesOf
  rw [fixup_id ls h,
    pySplit_sepUnjoin_flat ls (fun l hl => (h l hl).2.1),
    procLines_norm_append_nil ls h]

/-- C3 (amended).  For every packed chunk over normalized cue lines
(non-empty, marker-free, no leading cleanup punctuation or whitespace,
no trailing whitespace, no double spaces), reconstruction with the
identity provider returns the original cue lines exactly.  On lines
with leading punctuation the round trip also strips that punctuation —
more than whitespace normalization (see the counterexample). -/
theorem C3_roundtrip_identity (ls : List Str) (hne : ls ≠ [])
    (h : ∀ l ∈ ls, normLine l) :
    unjoin_sentences (some (chunkOf ls)) (some (chunkOf ls)) sepUnjoin =
      .lines ls := by
  have ho := origSide ls hne h
  have hm := modSide ls h
  simp only [unjoin_sentences]
  rw [ho, hm, if_pos rfl]

/-- Modelled from the claim's words: pure whitespace normalization —
split on whitespace runs and rejoin with single spaces. -/
def wsNormalize (s : Str) : Str := pyJoin [' '] (wordsOf s)

/-- Counterexample to C3 as stated: the cue `"...ok"`, packed alone and
round-tripped through the identity provider, comes back as `"ok"` —
the leading dots are removed by the `lstrip(" ,.:;)")` cleanup, which
is more than whitespace normalization. -/
theorem C3_counterexample :
    unjoin_sentences (some (toL "...ok ◌ ")) (some (toL "...ok ◌ ")) sepUnjoin =
      .lines [toL "ok"] ∧
    toL "ok" ≠ wsNormalize (toL "...ok") := by
  constructor
  · simp +decide [unjoin_sentences, originalLinesOf, modifiedLinesOf,
      fixupModified, procLines, procFrag, pySplit, pyReplace, pyStrip,
      pyLstrip, pyIsSpace, sepUnjoin, junkChars, toL]
  · decide

/-- Witness for C3 at a concrete input. -/
theorem C3_roundtrip_identity_witness :
    unjoin_sentences (some (chunkOf [toL "ab"])) (some (chunkOf [toL "ab"]))
      sepUnjoin = .lines [toL "ab"] :=
  C3_roundtrip_identity [toL "ab"] (by decide) (by
    intro l hl
    rw [List.mem_singleton] at hl
    subst hl
    refine ⟨by decide, by decide, by decide, by decide, ?_⟩
    show pairFree ' ' ' ' (toL "ab")
    decide)

/-! ### C4: proportional word redistribution -/

/-- Python `round` of a non-negative quantity is non-negative. -/
theorem pyRound_nonneg (q : ℚ) (h : 0 ≤ q) : 0 ≤ pyRound q := by
  have hf0 : 0 ≤ ⌊q⌋ := Int.floor_nonneg.mpr h
  simp only [pyRound]
  split_ifs <;> omega

/-- The Python list slice with non-negative bounds is drop-then-take. -/
theorem pySliceNat_eq (xs : List Str) (a b : ℤ) (ha : 0 ≤ a) (hab : a ≤ b) :
    pySliceNat xs a b = (xs.drop a.toNat).take (b - a).toNat := by
  unfold pySliceNat
  rw [max_eq_left (by omega), max_eq_left (by omega)]
  rw [List.drop_take]
  congr 1
  omega

/-- A greedy split always produces at least one fragment. -/
theorem pySplit_ne_nil (pat s : Str) : pySplit pat s ≠ [] := by
  rcases s with _ | ⟨c, t⟩
  · simp [pySplit]
  · simp only [pySplit]
    split
    · simp
    · rcases he : pySplit pat t with _ | ⟨h0, r⟩
      · simp
      · simp

/-- Fragments of a single-character split never contain the splitting
character. -/
theorem pySplit_single_frag (a : Char) (s : Str) :
    ∀ f ∈ pySplit [a] s, a ∉ f := by
  induction s with
  | nil =>
    intro f hf
    have h0 : pySplit [a] ([] : Str) = [[]] := by simp [pySplit]
    rw [h0] at hf
    simp at hf
    simp [hf]
  | cons c t ih =>
    intro f hf
    by_cases hc : a = c
    · subst hc
      have h1 : pySplit [a] (a :: t) = [] :: pySplit [a] t := by
        simp [pySplit, List.isPrefixOf]
      rw [h1] at hf
      rcases List.mem_cons.mp hf with hf | hf
      · simp [hf]
      · exact ih f hf
    · have hpre : ¬ (([a] : Str) ≠ [] ∧ ([a] : Str).isPrefixOf (c :: t) = true) := by
        rintro ⟨-, hp⟩
        simp only [List.isPrefixOf, Bool.and_eq_true, beq_iff_eq] at hp
        exact hc hp.1
      have h1 : pySplit [a] (c :: t) =
          match pySplit [a] t with
          | h :: r => (c :: h) :: r
          | [] => [[c]] := by
        rw [pySplit]
        rw [dif_neg hpre]
      rcases he : pySplit [a] t with _ | ⟨h0, r⟩
      · exact absurd he (pySplit_ne_nil [a] t)
      · rw [h1, he] at hf
        rcases List.mem_cons.mp hf with hf | hf
        · subst hf
          intro hm
          rcases List.mem_cons.mp hm with hm | hm
          · exact hc hm
          · exact ih h0 (he ▸ List.mem_cons_self h0 r) hm
        · exact ih f (he ▸ List.mem_cons_of_mem h0 hf)

/-- The word pool of the redistribution step contains no spaces. -/
theorem poolOf_space_free (sep : Str) (ls : List Str) :
    ∀ w ∈ poolOf sep ls, ' ' ∉ w := by
  intro w hw
  exact pySplit_single_frag ' ' _ w hw

/-- Joining words with single spaces yields no double space. -/
theorem pairFree_join_words (ws : List Str) (h : ∀ w ∈ ws, isWord w) :
    pairFree ' ' ' ' (pyJoin [' '] ws) := by
  induction ws with
  | nil => trivial
  | cons w rest ih =>
    have hw := h w (by simp)
    have hwsp : ' ' ∉ w := fun hm => absurd (hw.2 ' ' hm) (by decide)
    rcases rest with _ | ⟨w2, rest2⟩
    · have h1 : pyJoin [' '] [w] = w := rfl
      rw [h1]
      have h2 := pairFree_append ' ' ' ' w [] hwsp trivial
      simpa using h2
    · have hre : pyJoin [' '] (w :: w2 :: rest2) =
          w ++ (' ' :: pyJoin [' '] (w2 :: rest2)) := by
        simp [pyJoin]
      rw [hre]
      refine pairFree_append ' ' ' ' w _ hwsp ?_
      have ih' := ih (fun x hx => h x (List.mem_cons_of_mem w hx))
      have hw2 := h w2 (by simp)
      rcases hw2' : w2 with _ | ⟨d, t2⟩
      · exact absurd hw2' hw2.1
      · obtain ⟨Jt, hJt⟩ : ∃ Jt, pyJoin [' '] ((d :: t2) :: rest2) = d :: Jt := by
          rcases rest2 with _ | ⟨w3, rest3⟩
          · exact ⟨t2, rfl⟩
          · exact ⟨t2 ++ ' ' :: pyJoin [' '] (w3 :: rest3), by simp [pyJoin]⟩
        rw [hw2'] at ih'
        rw [hJt]
        refine ⟨?_, ?_⟩
        · rintro ⟨-, hd⟩
          have hmem : ' ' ∈ w2 := by
            rw [hw2', ← hd]
            exact List.mem_cons_self d t2
          exact absurd (hw2.2 ' ' hmem) (by decide)
        · rw [← hJt]
          exact ih'

/-- `pyJoin` over at least two fragments. -/
theorem pyJoin_cons_cons (sep x y : Str) (xs : List Str) :
    pyJoin sep (x :: y :: xs) = x ++ sep ++ pyJoin sep (y :: xs) := rfl

/-- A join of words is empty only for the empty word list. -/
theorem pyJoin_words_ne_nil (ws : List Str) (hne : ws ≠ [])
    (h : ∀ w ∈ ws, isWord w) : pyJoin [' '] ws ≠ [] := by
  rcases ws with _ | ⟨w, rest⟩
  · exact absurd rfl hne
  · have hw := (h w (by simp)).1
    rcases rest with _ | ⟨w2, rest2⟩
    · exact hw
    · rw [pyJoin_cons_cons]
      rcases w with _ | ⟨c, t⟩
      · exact absurd rfl hw
      · simp

/-- The head of a join of words is the head of the first word. -/
theorem join_words_head (ws : List Str) (h : ∀ w ∈ ws, isWord w) :
    ∀ c, (pyJoin [' '] ws).head? = some c → pyIsSpace c = false := by
  intro c hc
  rcases ws with _ | ⟨w, rest⟩
  · simp [pyJoin] at hc
  · have hw := h w (by simp)
    rcases hww : w with _ | ⟨d, t⟩
    · exact absurd hww hw.1
    · have hd : c = d := by
        rcases rest with _ | ⟨w2, rest2⟩
        · have h1 : pyJoin [' '] [w] = w := rfl
          rw [h1, hww] at hc
          simpa using hc.symm
        · rw [pyJoin_cons_cons, hww] at hc
          simpa using hc.symm
      rw [hd]
      exact hw.2 d (by rw [hww]; exact List.mem_cons_self d t)

/-- The last character of a join of words is the last character of the
last word. -/
theorem join_words_getLast (ws : List Str) (h : ∀ w ∈ ws, isWord w) :
    ∀ c, (pyJoin [' '] ws).getLast? = some c → pyIsSpace c = false := by
  induction ws with
  | nil => intro c hc; simp [pyJoin] at hc
  | cons w rest ih =>
    intro c hc
    rcases rest with _ | ⟨w2, rest2⟩
    · have h1 : pyJoin [' '] [w] = w := rfl
      rw [h1] at hc
      have hcm : c ∈ w := by
        have h2 : w.reverse.head? = some c := by
          rw [List.head?_reverse]
          exact hc
        rcases hwr : w.reverse with _ | ⟨d, t⟩
        · rw [hwr] at h2; simp at h2
        · rw [hwr] at h2
          simp only [List.head?_cons, Option.some.injEq] at h2
          rw [← List.mem_reverse, hwr, ← h2]
          exact List.mem_cons_self d t
      exact (h w (by simp)).2 c hcm
    · rw [pyJoin_cons_cons] at hc
      have hne : (' ' :: pyJoin [' '] (w2 :: rest2) : Str) ≠ [] := by simp
      have happ : (w ++ [' '] ++ pyJoin [' '] (w2 :: rest2)).getLast? =
          (pyJoin [' '] (w2 :: rest2)).getLast? := by
        have hne2 : pyJoin [' '] (w2 :: rest2) ≠ [] :=
          pyJoin_words_ne_nil (w2 :: rest2) (by simp)
            (fun x hx => h x (List.mem_cons_of_mem w hx))
        have hsome : (pyJoin [' '] (w2 :: rest2)).getLast?.isSome :=
          List.getLast?_isSome.mpr hne2
        rw [List.append_assoc, List.getLast?_append, List.getLast?_append,
          Option.or_of_isSome hsome, Option.or_of_isSome hsome]
      rw [happ] at hc
      exact ih (fun x hx => h x (List.mem_cons_of_mem w hx)) c hc

/-- Stripping is the identity on a join of words. -/
theorem pyStrip_join_words (ws : List Str) (h : ∀ w ∈ ws, isWord w) :
    pyStrip (pyJoin [' '] ws) = pyJoin [' '] ws := by
  unfold pyStrip
  rw [dropWhile_eq_self_of_head pyIsSpace (pyJoin [' '] ws) (join_words_head ws h)]
  rw [dropWhile_eq_self_of_head pyIsSpace ((pyJoin [' '] ws).reverse) (fun c hc => by
    rw [List.head?_reverse] at hc
    exact join_words_getLast ws h c hc)]
  rw [List.reverse_reverse]

/-- The per-line finish of the redistribution loop (`replace` then
`strip`) recovers exactly the words that were joined. -/
theorem redist_line_words (ws : List Str) (h : ∀ w ∈ ws, isWord w) :
    wordsOf (pyStrip (pyReplace (toL "  ") (toL " ") (pyJoin [' '] ws))) = ws := by
  have hd : toL "  " = [' ', ' '] := rfl
  have hd2 : toL " " = [' '] := rfl
  rw [hd, hd2, pyReplace_pair_noop ' ' ' ' [' '] _ (pairFree_join_words ws h),
    pyStrip_join_words ws h, wordsOf_join ws h]

/-- `pyStrip` steps over one leading space. -/
theorem pyStrip_cons_space (y : Str) : pyStrip (' ' :: y) = pyStrip y := by
  unfold pyStrip
  rw [List.dropWhile_cons, if_pos (by decide : pyIsSpace ' ' = true)]

/-- Joining a concatenation of two non-empty word lists. -/
theorem pyJoin_append_words (A B : List Str) (hA : A ≠ []) (hB : B ≠ []) :
    pyJoin [' '] (A ++ B) = pyJoin [' '] A ++ ' ' :: pyJoin [' '] B := by
  induction A with
  | nil => exact absurd rfl hA
  | cons w A' ih =>
    rcases A' with _ | ⟨w2, A''⟩
    · rcases B with _ | ⟨b, B'⟩
      · exact absurd rfl hB
      · rw [List.singleton_append, pyJoin_cons_cons]
        simp [pyJoin]
    · calc pyJoin [' '] ((w :: w2 :: A'') ++ B)
          = w ++ [' '] ++ pyJoin [' '] ((w2 :: A'') ++ B) := by
            rw [show ((w :: w2 :: A'') ++ B) = w :: w2 :: (A'' ++ B) from rfl,
              pyJoin_cons_cons]
            rfl
        _ = w ++ [' '] ++ (pyJoin [' '] (w2 :: A'') ++ ' ' :: pyJoin [' '] B) := by
            rw [ih (by simp)]
        _ = pyJoin [' '] (w :: w2 :: A'') ++ ' ' :: pyJoin [' '] B := by
            rw [pyJoin_cons_cons]
            simp [List.append_assoc]

/-- Every element of a Python list slice is an element of the list. -/
theorem pySliceNat_mem (xs : List Str) (a b : ℤ) :
    ∀ w ∈ pySliceNat xs a b, w ∈ xs := by
  intro w hw
  unfold pySliceNat at hw
  exact List.mem_of_mem_take (List.mem_of_mem_drop hw)

/-- The redistribution described by the words of C4, on word lists: each
original line receives the `round(count * ratio)` next consecutive words
of the translated pool (as far as the pool reaches), and the last line
also absorbs all remaining pool words.  This is the comparison target
for the word content of the lines `redistAux` builds. -/
def claimRedistribution (pool : List Str) (ratio : ℚ) : List Str → ℤ → List (List Str)
  | [], _ => []
  | ol :: rest, cur =>
    let num : ℤ := pyRound (((wordsOf (pyStrip ol)).length : ℚ) * ratio)
    if rest = [] then
      [pySliceNat pool cur (cur + num) ++ pool.drop (cur + num).toNat]
    else
      pySliceNat pool cur (cur + num) :: claimRedistribution pool ratio rest (cur + num)

/-- The word content of the redistribution loop: when every pool
fragment is a genuine word, line `i` of `redistAux` carries exactly the
pool slice from the cursor to the cursor plus the line's rounded share,
and the last line also the remaining pool tail. -/
theorem redistAux_words (pool : List Str) (ratio : ℚ)
    (hpool : ∀ w ∈ pool, isWord w) :
    ∀ (ols : List Str) (cur : ℤ),
      (redistAux pool ratio ols cur).map wordsOf =
        claimRedistribution pool ratio ols cur := by
  intro ols
  induction ols with
  | nil => intro cur; rfl
  | cons ol rest ih =>
    intro cur
    have hslice : ∀ w ∈ pySliceNat pool cur
        (cur + pyRound (((wordsOf (pyStrip ol)).length : ℚ) * ratio)), isWord w :=
      fun w hw => hpool w (pySliceNat_mem pool _ _ w hw)
    by_cases hrest : rest = []
    · subst hrest
      simp only [redistAux, claimRedistribution, if_true]
      by_cases hdrop : pool.drop
          (cur + pyRound (((wordsOf (pyStrip ol)).length : ℚ) * ratio)).toNat = []
      · rw [hdrop]
        have htail : pyJoin [' '] ([] : List Str) = [] := rfl
        rw [htail, if_neg (by simp), List.map_cons, List.map_nil,
          redist_line_words _ hslice, List.append_nil]
      · have hdropw : ∀ w ∈ pool.drop
            (cur + pyRound (((wordsOf (pyStrip ol)).length : ℚ) * ratio)).toNat,
            isWord w := fun w hw => hpool w (List.mem_of_mem_drop hw)
        have htail : pyJoin [' ']
            (pool.drop
              (cur + pyRound (((wordsOf (pyStrip ol)).length : ℚ) * ratio)).toNat) ≠ [] :=
          pyJoin_words_ne_nil _ hdrop hdropw
        rw [if_pos htail, List.map_cons, List.map_nil]
        by_cases hsl : pySliceNat pool cur
            (cur + pyRound (((wordsOf (pyStrip ol)).length : ℚ) * ratio)) = []
        · rw [hsl]
          have hjn : pyJoin [' ']
              [pyJoin [' '] ([] : List Str),
                pyJoin [' ']
                  (pool.drop
                    (cur + pyRound (((wordsOf (pyStrip ol)).length : ℚ) * ratio)).toNat)] =
              ' ' :: pyJoin [' ']
                (pool.drop
                  (cur + pyRound (((wordsOf (pyStrip ol)).length : ℚ) * ratio)).toNat) := rfl
          rw [hjn, pyStrip_cons_space, pyStrip_join_words _ hdropw,
            redist_line_words _ hdropw, List.nil_append]
        · have hjn : pyJoin [' ']
              [pyJoin [' ']
                  (pySliceNat pool cur
                    (cur + pyRound (((wordsOf (pyStrip ol)).length : ℚ) * ratio))),
                pyJoin [' ']
                  (pool.drop
                    (cur + pyRound (((wordsOf (pyStrip ol)).length : ℚ) * ratio)).toNat)] =
              pyJoin [' ']
                (pySliceNat pool cur
                    (cur + pyRound (((wordsOf (pyStrip ol)).length : ℚ) * ratio)) ++
                  pool.drop
                    (cur + pyRound (((wordsOf (pyStrip ol)).length : ℚ) * ratio)).toNat) := by
            rw [pyJoin_append_words _ _ hsl hdrop, pyJoin_cons_cons]
            simp [List.append_assoc]
            rfl
          have happw : ∀ w ∈ pySliceNat pool cur
              (cur + pyRound (((wordsOf (pyStrip ol)).length : ℚ) * ratio)) ++
                pool.drop
                  (cur + pyRound (((wordsOf (pyStrip ol)).length : ℚ) * ratio)).toNat,
              isWord w := by
            intro w hw
            rcases List.mem_append.mp hw with hw | hw
            · exact hslice w hw
            · exact hpool w (List.mem_of_mem_drop hw)
          rw [hjn, pyStrip_join_words _ happw, redist_line_words _ happw]
    · simp only [redistAux, claimRedistribution]
      rw [if_neg hrest, if_neg hrest, List.map_cons, redist_line_words _ hslice,
        ih (cur + pyRound (((wordsOf (pyStrip ol)).length : ℚ) * ratio))]

/-- C4 (amended).  When fragment counts mismatch and both word totals
are non-zero, and every fragment of the translated word pool is a
genuine word, `unjoin_sentences` returns a list of lines whose word
contents are exactly the consecutive pool slices
`pool[cur : cur + round(count * ratio)]` walked in order, the last line
also absorbing the remaining pool tail.  A line receives its full
rounded share only while the pool lasts: rounding can exhaust the pool
early (see the counterexample). -/
theorem C4_proportional_redistribution (orig modif sep : Str)
    (howc : owcOf (originalLinesOf sep orig) ≠ 0)
    (hmwc : mwcOf (modifiedLinesOf modif) ≠ 0)
    (hlen : (originalLinesOf sep orig).length ≠ (modifiedLinesOf modif).length)
    (hpool : ∀ w ∈ poolOf sep (modifiedLinesOf modif), isWord w) :
    ∃ R, unjoin_sentences (some orig) (some modif) sep = .lines R ∧
      R.map wordsOf =
        claimRedistribution (poolOf sep (modifiedLinesOf modif))
          ((mwcOf (modifiedLinesOf modif) : ℚ) / (owcOf (originalLinesOf sep orig) : ℚ))
          (originalLinesOf sep orig) 0 := by
  have hol : originalLinesOf sep orig ≠ [] := by
    intro h
    rw [h] at howc
    simp [owcOf] at howc
  have hrl : (redistAux (poolOf sep (modifiedLinesOf modif))
      ((mwcOf (modifiedLinesOf modif) : ℚ) / (owcOf (originalLinesOf sep orig) : ℚ))
      (originalLinesOf sep orig) 0).length =
      (originalLinesOf sep orig).length :=
    redistAux_length _ _ _ _
  have hrne : redistAux (poolOf sep (modifiedLinesOf modif))
      ((mwcOf (modifiedLinesOf modif) : ℚ) / (owcOf (originalLinesOf sep orig) : ℚ))
      (originalLinesOf sep orig) 0 ≠ [] := by
    intro h
    rw [h] at hrl
    exact hol (List.length_eq_zero.mp hrl.symm)
  have hpad : padTo (originalLinesOf sep orig).length
      (redistAux (poolOf sep (modifiedLinesOf modif))
        ((mwcOf (modifiedLinesOf modif) : ℚ) / (owcOf (originalLinesOf sep orig) : ℚ))
        (originalLinesOf sep orig) 0) =
      redistAux (poolOf sep (modifiedLinesOf modif))
        ((mwcOf (modifiedLinesOf modif) : ℚ) / (owcOf (originalLinesOf sep orig) : ℚ))
        (originalLinesOf sep orig) 0 := by
    rw [padTo, if_neg hrne, hrl, Nat.sub_self]
    simp
  refine ⟨redistAux (poolOf sep (modifiedLinesOf modif))
      ((mwcOf (modifiedLinesOf modif) : ℚ) / (owcOf (originalLinesOf sep orig) : ℚ))
      (originalLinesOf sep orig) 0, ?_, ?_⟩
  · simp only [unjoin_sentences, if_neg hlen]
    rw [if_neg (show ¬ (owcOf (originalLinesOf sep orig) = 0 ∨
      mwcOf (modifiedLinesOf modif) = 0) by tauto)]
    rw [hpad, if_pos hrne]
  · exact redistAux_words _ _ hpool _ 0

/-- Counterexample to C4 as stated: six one-word cues against a
nine-word response give ratio 9/6 = 3/2, whose rounded per-line share
is `round(1 * 3/2) = 2` (round half to even); lines 0–3 receive two
words each, but line 4 — not the last line — receives only the single
remaining word `"p"` (one word, not two), and the last line receives
none: the rounded shares exhaust the pool early, so a line does not
always receive `round(count * ratio)` words. -/
theorem C4_counterexample :
    unjoin_sentences (some (toL "a ◌ b ◌ c ◌ d ◌ e ◌ f ◌ "))
        (some (toL "h i j k l m n o p")) sepL =
      .lines [toL "h i", toL "j k", toL "l m", toL "n o", toL "p", []] ∧
    pyRound ((1 : ℚ) * (9 / 6)) = 2 ∧
    (wordsOf (toL "p")).length = 1 := by
  have hf : ⌊(3 / 2 : ℚ)⌋ = 1 := by norm_num
  have hr : pyRound ((9 : ℚ) / 6) = 2 := by
    have hq : (9 : ℚ) / 6 = 3 / 2 := by norm_num
    rw [hq]
    simp only [pyRound, hf]
    norm_num
  refine ⟨?_, ?_, ?_⟩
  · simp +decide [hr, unjoin_sentences, originalLinesOf, modifiedLinesOf,
      fixupModified, procLines, procFrag, owcOf, mwcOf, poolOf, redistAux, padTo,
      pySliceNat, pySplit, pyReplace, pyStrip, pyLstrip, pyIsSpace, wordsOf,
      pyJoin, sepL, sepUnjoin, junkChars, toL]
  · have hq1 : (1 : ℚ) * (9 / 6) = 9 / 6 := by norm_num
    rw [hq1, hr]
  · simp +decide [wordsOf, pyIsSpace, toL]

/-- Witness for C4 at a concrete input: original lines `["a b", "c"]`
(three words) against the six-word response `"p q r s t u"` give ratio
2; line 1 receives the four words `p q r s` and line 2 the remaining
two words `t u`. -/
theorem C4_proportional_redistribution_witness :
    ∃ R, unjoin_sentences (some (toL "a b ◌ c ◌ ")) (some (toL "p q r s t u")) sepL =
        .lines R ∧
      R.map wordsOf =
        claimRedistribution (poolOf sepL (modifiedLinesOf (toL "p q r s t u")))
          ((mwcOf (modifiedLinesOf (toL "p q r s t u")) : ℚ) /
            (owcOf (originalLinesOf sepL (toL "a b ◌ c ◌ ")) : ℚ))
          (originalLinesOf sepL (toL "a b ◌ c ◌ ")) 0 :=
  C4_proportional_redistribution (toL "a b ◌ c ◌ ") (toL "p q r s t u") sepL
    (by simp +decide [owcOf, originalLinesOf, procLines, procFrag, pySplit,
      pyReplace, pyStrip, pyLstrip, pyIsSpace, wordsOf, sepL, junkChars, toL])
    (by simp +decide [mwcOf, modifiedLinesOf, fixupModified, procLines, procFrag,
      pySplit, pyReplace, pyStrip, pyLstrip, pyIsSpace, wordsOf, pyJoin,
      sepL, sepUnjoin, junkChars, toL])
    (by simp +decide [originalLinesOf, modifiedLinesOf, fixupModified, procLines,
      procFrag, pySplit, pyReplace, pyStrip, pyLstrip, pyIsSpace,
      sepL, sepUnjoin, junkChars, toL])
    (by simp +decide [poolOf, modifiedLinesOf, fixupModified, procLines, procFrag,
      pySplit, pyReplace, pyStrip, pyLstrip, pyIsSpace, pyJoin, isWord,
      sepL, sepUnjoin, junkChars, toL])

end LeGen
